import Mathlib

/-
Verification of the QCA synthesis pipeline (DataCleaner.py / JsonDataCleaner.py).

Strings are modelled as `List Char`.  Python regular-expression passes are
translated into explicit left-to-right scanning functions; each scanning
function takes a fuel argument (any fuel at least `length + 1` computes the
full scan, since every step either consumes a match of at least one character
or advances one character).  Character classes (`\w`, `\s`, `\d`, upper/lower
case) are modelled on the ASCII range, which covers all concrete inputs used
below; Python's Unicode extensions of these classes do not affect the stated
properties.  Floating-point ratios in the source are modelled as exact
rationals.  External collaborators (nltk `sent_tokenize`, the spaCy models
behind `generate_summary`'s English tokenisation and `identify_relation`, the
`random.choice` template pick, and the byte size of a serialized record) are
opaque to the repository and are modelled as explicit parameters.
-/

set_option autoImplicit false

namespace Py

/-- Python `\s` / `str.strip` whitespace class, on the characters that can
actually appear in this development (ASCII plus the common Unicode spaces). -/
def pyIsSpace (c : Char) : Bool :=
  c = ' ' ∨ c = '\t' ∨ c = '\n' ∨ c = '\r' ∨ c = '\x0b' ∨ c = '\x0c' ∨
  c = '\x1c' ∨ c = '\x1d' ∨ c = '\x1e' ∨ c = '\x1f' ∨ c.toNat = 0x85 ∨ c.toNat = 0xa0 ∨
  c.toNat = 0x1680 ∨ (0x2000 ≤ c.toNat ∧ c.toNat ≤ 0x200a) ∨ c.toNat = 0x2028 ∨
  c.toNat = 0x2029 ∨ c.toNat = 0x202f ∨ c.toNat = 0x205f ∨ c.toNat = 0x3000

/-- Python `\w` (word character), restricted to ASCII: letters, digits, `_`. -/
def pyIsWordChar (c : Char) : Bool :=
  (97 ≤ c.toNat ∧ c.toNat ≤ 122) ∨ (65 ≤ c.toNat ∧ c.toNat ≤ 90) ∨
  (48 ≤ c.toNat ∧ c.toNat ≤ 57) ∨ c = '_'

/-- Python `\d` (decimal digit), ASCII. -/
def pyIsDigit (c : Char) : Bool := 48 ≤ c.toNat ∧ c.toNat ≤ 57

/-- ASCII upper-case test (`str.isupper` on the first character of a word). -/
def pyIsUpper (c : Char) : Bool := 65 ≤ c.toNat ∧ c.toNat ≤ 90

/-- ASCII `str.lower` on one character, as an explicit table. -/
def lowerChar (c : Char) : Char :=
  match c with
  | 'A' => 'a' | 'B' => 'b' | 'C' => 'c' | 'D' => 'd' | 'E' => 'e' | 'F' => 'f'
  | 'G' => 'g' | 'H' => 'h' | 'I' => 'i' | 'J' => 'j' | 'K' => 'k' | 'L' => 'l'
  | 'M' => 'm' | 'N' => 'n' | 'O' => 'o' | 'P' => 'p' | 'Q' => 'q' | 'R' => 'r'
  | 'S' => 's' | 'T' => 't' | 'U' => 'u' | 'V' => 'v' | 'W' => 'w' | 'X' => 'x'
  | 'Y' => 'y' | 'Z' => 'z'
  | _ => c

/-- `str.lower` on a string. -/
def lowerList (l : List Char) : List Char := l.map lowerChar

/-- Drop a trailing run of whitespace (the right half of `str.strip`). -/
def dropTrailing : List Char → List Char
  | [] => []
  | c :: cs =>
    let r := dropTrailing cs
    if r = [] ∧ pyIsSpace c then [] else c :: r

/-- Python `str.strip()`. -/
def pyStrip (l : List Char) : List Char := dropTrailing (l.dropWhile pyIsSpace)

/-- Split into the maximal runs of characters on which `sep` is false,
dropping empty runs: with `sep := pyIsSpace` this is Python `str.split()`. -/
def splitRuns (sep : Char → Bool) : List Char → List (List Char)
  | [] => []
  | [c] => if sep c then [] else [[c]]
  | c :: d :: cs =>
    if sep c then splitRuns sep (d :: cs)
    else if sep d then [c] :: splitRuns sep cs
    else
      match splitRuns sep (d :: cs) with
      | [] => [[c]]
      | w :: ws => (c :: w) :: ws

/-- Python `str.split()` (split on whitespace, no empty fields). -/
def pySplit (l : List Char) : List (List Char) := splitRuns pyIsSpace l

/-- `re.findall(r'\b\w+\b', s)`: the maximal word-character runs of `s`. -/
def wordRuns (l : List Char) : List (List Char) :=
  splitRuns (fun c => ¬ pyIsWordChar c) l

/-- Python `sep.join(parts)`. -/
def joinWith (sep : List Char) : List (List Char) → List Char
  | [] => []
  | [w] => w
  | w :: ws => w ++ sep ++ joinWith sep ws

/-- `" ".join(parts)`. -/
def joinSpace (ws : List (List Char)) : List Char := joinWith [' '] ws

/-- `", ".join(parts)`. -/
def joinCommaSpace (ws : List (List Char)) : List Char := joinWith [',', ' '] ws

/-- Python substring test `pat in s`. -/
def containsSub (pat : List Char) : List Char → Bool
  | [] => pat.isEmpty
  | c :: cs => pat.isPrefixOf (c :: cs) || containsSub pat cs

/-- One left-to-right pass of `re.sub(pattern, '', text)`: at each position
try `step` (the pattern matcher, returning the text after the consumed match);
on a match continue after it, otherwise keep the character and advance.  Fuel
`length + 1` is always enough because every match consumes at least one
character. -/
def scanRemove (step : List Char → Option (List Char)) : Nat → List Char → List Char
  | 0, l => l
  | _ + 1, [] => []
  | fuel + 1, c :: cs =>
    match step (c :: cs) with
    | some rest => scanRemove step fuel rest
    | none => c :: scanRemove step fuel cs

/-- Apply `scanRemove` with sufficient fuel. -/
def runRemove (step : List Char → Option (List Char)) (l : List Char) : List Char :=
  scanRemove step (l.length + 1) l

/-- Case-insensitive literal prefix match: on success return the remainder. -/
def matchLitCI : List Char → List Char → Option (List Char)
  | [], l => some l
  | _ :: _, [] => none
  | p :: ps, c :: cs => if lowerChar c = lowerChar p then matchLitCI ps cs else none

/-- Remove every (case-insensitive, left-to-right, non-overlapping) occurrence
of the literal `pat`: `re.sub(re.escape(pat), '', s, flags=re.IGNORECASE)`. -/
def removeLitCI (pat : List Char) (l : List Char) : List Char :=
  runRemove (fun t => if pat = [] then none else matchLitCI pat t) l

/-- Consume exactly `n` characters satisfying `p`. -/
def matchCount (p : Char → Bool) : Nat → List Char → Option (List Char)
  | 0, l => some l
  | _ + 1, [] => none
  | n + 1, c :: cs => if p c then matchCount p n cs else none

/-- Consume one or more characters satisfying `p` (greedy; the following
pattern element in every use below cannot match a `p`-character, so greedy
matching consumes exactly the maximal run). -/
def matchPlus (p : Char → Bool) (l : List Char) : Option (List Char) :=
  match l with
  | [] => none
  | c :: cs => if p c then some (cs.dropWhile p) else none

/-- Consume zero or more characters satisfying `p` (same greediness remark). -/
def matchStar (p : Char → Bool) (l : List Char) : List Char := l.dropWhile p

/-- Consume a single literal character, case-insensitively. -/
def matchChar (x : Char) : List Char → Option (List Char)
  | [] => none
  | c :: cs => if lowerChar c = lowerChar x then some cs else none

/-- Case-sensitive literal prefix match: on success return the remainder. -/
def matchLit : List Char → List Char → Option (List Char)
  | [], l => some l
  | _ :: _, [] => none
  | p :: ps, c :: cs => if c = p then matchLit ps cs else none

/-- ASCII letter (`[A-Za-z]`, which is what `[A-Z]` matches under
`re.IGNORECASE`). -/
def pyIsAlpha (c : Char) : Bool := (97 ≤ c.toNat ∧ c.toNat ≤ 122) ∨ (65 ≤ c.toNat ∧ c.toNat ≤ 90)

/-- Sequencing of matchers. -/
def andThen (m : Option (List Char)) (k : List Char → Option (List Char)) :
    Option (List Char) :=
  match m with
  | none => none
  | some l => k l

/-- Word-boundary test after a match: the next character (if any) is not a
word character. -/
def noWordAhead : List Char → Bool
  | [] => true
  | d :: _ => ¬ pyIsWordChar d

end Py

open Py

namespace DC

/-! Definitions translated from `DataCleaner.py`. -/

/-- `UI_PHRASES` of DataCleaner.py. -/
def UI_PHRASES : List (List Char) :=
  ["add to cart".toList, "buy now".toList, "click here".toList, "read more".toList,
   "sign up".toList, "subscribe".toList, "free trial".toList, "learn more".toList,
   "checkout".toList, "order now".toList, "view details".toList]

/-- `SCRAPER_FAILURES` of DataCleaner.py. -/
def SCRAPER_FAILURES : List (List Char) :=
  ["title".toList, "heading".toList, "null".toList, "n/a".toList,
   "loading...".toList, "error".toList, "undefined".toList]

def LOWER_WORD_THRESHOLD : Nat := 5

/-- Matcher for `://\S+` (the tail of the URL pattern). -/
def urlTail (l : List Char) : Option (List Char) :=
  andThen (matchLit "://".toList l) (matchPlus (fun c => ¬ pyIsSpace c))

/-- Matcher for `http[s]?://\S+` (case-sensitive — the source passes no
flags to this `re.sub`); `[s]?` is greedy, so `s` is tried first. -/
def urlStep (l : List Char) : Option (List Char) :=
  andThen (matchLit "http".toList l) (fun l4 =>
    match matchLit "s".toList l4 with
    | some l5 =>
      match urlTail l5 with
      | some r => some r
      | none => urlTail l4
    | none => urlTail l4)

/-- `remove_urls`: `re.sub(r'http[s]?://\S+', '', text)`. -/
def remove_urls (text : List Char) : List Char := runRemove urlStep text

/-- One step of `re.sub(r'\s+', ' ', text)`: collapse each whitespace run to a
single `' '`.  `prev` records whether the previous character was part of a
whitespace run already emitted. -/
def collapseGo : Bool → List Char → List Char
  | _, [] => []
  | prev, c :: cs =>
    if pyIsSpace c then
      if prev then collapseGo true cs else ' ' :: collapseGo true cs
    else c :: collapseGo false cs

/-- `re.sub(r'\s+', ' ', text)`. -/
def collapseWs (l : List Char) : List Char := collapseGo false l

/-- `clean_text` of DataCleaner.py: remove URLs, collapse whitespace, drop all
non-word non-space characters (`re.sub(r'[^\w\s]', '', text)`), strip. -/
def clean_text (text : List Char) : List Char :=
  pyStrip ((collapseWs (remove_urls text)).filter
    (fun c => pyIsWordChar c || pyIsSpace c))

/-- `clean_special_characters`: keep only the allow-listed codepoint ranges
`[\x00-\x7Fऀ-ॿ਀-੿ঀ-৿஀-௿ಀ-೿ -⁯]`. -/
def clean_special_characters (text : List Char) : List Char :=
  text.filter (fun c =>
    c.toNat ≤ 0x7F ∨ (0x900 ≤ c.toNat ∧ c.toNat ≤ 0x97F) ∨ (0xA00 ≤ c.toNat ∧ c.toNat ≤ 0xA7F) ∨
    (0x980 ≤ c.toNat ∧ c.toNat ≤ 0x9FF) ∨ (0xB80 ≤ c.toNat ∧ c.toNat ≤ 0xBFF) ∨
    (0xC80 ≤ c.toNat ∧ c.toNat ≤ 0xCFF) ∨ (0x2000 ≤ c.toNat ∧ c.toNat ≤ 0x206F))

/-- One scan of `re.sub(r'\b(\w+)\s+\1\b', r'\1', text)`.  A match can only
start at a word boundary (`prevWord` is whether the previous character is a
word character); since `\s+` must follow `(\w+)`, the group is forced to be
the full word-character run, the whitespace the full following run, and the
match succeeds when the next run starts with a copy of the word followed by a
word boundary.  `re.sub` then continues scanning after the match. -/
def rrwGo : Nat → Bool → List Char → List Char
  | 0, _, l => l
  | _ + 1, _, [] => []
  | fuel + 1, prevWord, c :: cs =>
    if ¬ prevWord ∧ pyIsWordChar c then
      let w := (c :: cs).takeWhile pyIsWordChar
      let afterW := (c :: cs).dropWhile pyIsWordChar
      let sp := afterW.takeWhile pyIsSpace
      let afterSp := afterW.dropWhile pyIsSpace
      if sp ≠ [] ∧ afterSp.take w.length = w ∧ noWordAhead (afterSp.drop w.length) then
        w ++ rrwGo fuel true (afterSp.drop w.length)
      else c :: rrwGo fuel (pyIsWordChar c) cs
    else c :: rrwGo fuel (pyIsWordChar c) cs

/-- `remove_repeated_words`: `re.sub(r'\b(\w+)\s+\1\b', r'\1', text)`. -/
def remove_repeated_words (text : List Char) : List Char :=
  rrwGo (text.length + 1) false text

/-- `remove_leading_numbers`: `re.sub(r'^\d+\s*', '', text)`. -/
def remove_leading_numbers (text : List Char) : List Char :=
  match text with
  | [] => []
  | c :: _ =>
    if pyIsDigit c then (text.dropWhile pyIsDigit).dropWhile pyIsSpace else text

/-- The template list of `generate_context`; `random.choice` is modelled by the
explicit index `pick` (reduced mod 5). -/
def generate_context (pick : Nat) (target : List Char) : List Char :=
  let templates : List (List Char) :=
    ["This is a definition: ".toList ++ target,
     "The following statement is true: ".toList ++ target,
     "Here is some information: ".toList ++ target,
     "In this context, ".toList ++ target ++ " is the answer.".toList,
     "The explanation for this is: ".toList ++ target]
  templates.getD (pick % 5) []

/-- `truncate_context(context, answer, threshold=0.5)`. -/
def truncate_context (context answer : List Char) (threshold : ℚ) : List Char :=
  let context_words := pySplit context
  let answer_words := pySplit answer
  if context_words = [] then context
  else
    let lowered := answer_words.map lowerList
    let common : Nat := context_words.countP (fun w => lowered.contains (lowerList w))
    if (mkRat common context_words.length > threshold ∧ 6 < context_words.length)
    then joinSpace (context_words.take 3 ++ context_words.drop (context_words.length - 3))
    else context

/-- `is_target_double_size(input_text, target_value)`. -/
def is_target_double_size (input_text target_value : List Char) : Bool :=
  2 * input_text.length ≤ target_value.length

/-- `has_minimum_word_count(text, min_words)`. -/
def has_minimum_word_count (text : List Char) (min_words : Nat) : Bool :=
  min_words ≤ (pySplit text).length

/-- `is_valid_question(text)`: the stripped text ends with `?`. -/
def is_valid_question (text : List Char) : Bool :=
  (pyStrip text).getLast? = some '?'

/-- `is_overly_redundant(input_text, answer, threshold=0.6)`. -/
def is_overly_redundant (input_text answer : List Char) (threshold : ℚ) : Bool :=
  let input_words := pySplit (lowerList input_text)
  let answer_words := pySplit (lowerList answer)
  if answer_words = [] then true
  else
    let common : Nat := answer_words.countP (fun w => input_words.contains w)
    (mkRat common answer_words.length ≥ threshold)

/-- `should_include_answer(answer)`. -/
def should_include_answer (answer : List Char) : Bool :=
  if (pyStrip answer).getLast? = some '.' then true
  else
    let word_count := (pySplit answer).length
    let unwanted_phrases := UI_PHRASES ++ SCRAPER_FAILURES
    if 200 < word_count ∧
        ¬ unwanted_phrases.any (fun p => containsSub p (lowerList answer))
    then true else false

/-- `has_forbidden_words(answer)`: at least 2 total occurrences of the listed
words among the word runs of the lower-cased answer. -/
def has_forbidden_words (answer : List Char) : Bool :=
  let forbidden_words : List (List Char) :=
    ["save".toList, "pdf".toList, "download".toList, "disclaimer".toList,
     "copyright".toList, "email".toList]
  2 ≤ (forbidden_words.map (fun w => (wordRuns (lowerList answer)).count w)).sum

end DC

namespace JC

/-! Definitions translated from `JsonDataCleaner.py`. -/

def INPUT_LOWER : Nat := 4
def TARGET_LOWER : Nat := 150
def TARGET_UPPER : Nat := 400
def BATCH_SIZE : Nat := 10

/-- `MAX_FILE_SIZE = 50 * 1024 * 1024`. -/
def MAX_FILE_SIZE : Nat := 50 * 1024 * 1024

/-- `UI_PHRASES` of JsonDataCleaner.py, in source order (Python iterates the
set in an unspecified order; none of the properties proved below depend on
the order, and all concrete evaluations use inputs where at most one phrase
matches). -/
def UI_PHRASES : List (List Char) :=
  ["add to cart".toList, "buy now".toList, "click here".toList, "read more".toList,
   "sign up".toList, "subscribe".toList, "free trial".toList, "learn more".toList,
   "checkout".toList, "order now".toList, "view details".toList,
   "enable javascript".toList, "please enable".toList, "copyright".toList,
   "all rights reserved".toList, "All Rights Reserved".toList]

/-- `SCRAPER_FAILURES` of JsonDataCleaner.py. -/
def SCRAPER_FAILURES : List (List Char) :=
  ["title".toList, "heading".toList, "null".toList, "n/a".toList,
   "loading...".toList, "error".toList, "undefined".toList, "404".toList]

/-- Matcher for `http\S+` (case-sensitive, no `://` required). -/
def httpStep (l : List Char) : Option (List Char) :=
  andThen (matchLit "http".toList l) (fun r => matchPlus (fun c => ¬ pyIsSpace c) r)

/-- Matcher for `bbc\.?com` (IGNORECASE); `\.?` is greedy. -/
def bbcStep (l : List Char) : Option (List Char) :=
  andThen (matchLitCI "bbc".toList l) (fun r =>
    match matchChar '.' r with
    | some r2 =>
      match matchLitCI "com".toList r2 with
      | some r3 => some r3
      | none => matchLitCI "com".toList r
    | none => matchLitCI "com".toList r)

/-- Matcher for `\d{4} [A-Z]+` (IGNORECASE makes `[A-Z]` match both cases). -/
def yearCapsStep (l : List Char) : Option (List Char) :=
  andThen (matchCount pyIsDigit 4 l) (fun r =>
    andThen (matchChar ' ' r) (matchPlus pyIsAlpha))

/-- Matcher for `© \d{4}`. -/
def copyrightYearStep (l : List Char) : Option (List Char) :=
  andThen (matchChar '©' l) (fun r =>
    andThen (matchChar ' ' r) (matchCount pyIsDigit 4))

/-- Matcher for `published: \d{1,2} [A-Za-z]+ \d{4}` (IGNORECASE); `\d{1,2}`
is greedy, so two digits are tried before one. -/
def publishedStep (l : List Char) : Option (List Char) :=
  andThen (matchLitCI "published: ".toList l) (fun r =>
    let afterDigits :=
      match andThen (matchCount pyIsDigit 2 r) (matchChar ' ') with
      | some r2 => some r2
      | none => andThen (matchCount pyIsDigit 1 r) (matchChar ' ')
    andThen afterDigits (fun r3 =>
      andThen (matchPlus pyIsAlpha r3) (fun r4 =>
        andThen (matchChar ' ' r4) (matchCount pyIsDigit 4))))

/-- Matcher for `doi:\s*\d+\.\d+`. -/
def doiStep (l : List Char) : Option (List Char) :=
  andThen (matchLitCI "doi:".toList l) (fun r =>
    andThen (matchPlus pyIsDigit (matchStar pyIsSpace r)) (fun r2 =>
      andThen (matchChar '.' r2) (matchPlus pyIsDigit)))

/-- Matcher for `pp\.\s*\d+`. -/
def ppStep (l : List Char) : Option (List Char) :=
  andThen (matchLitCI "pp.".toList l) (fun r => matchPlus pyIsDigit (matchStar pyIsSpace r))

/-- Matcher for `प्रकाशित: \d{1,2} [^\s]+ \d{4}`. -/
def nePublishedStep (l : List Char) : Option (List Char) :=
  andThen (matchLitCI "प्रकाशित: ".toList l) (fun r =>
    let afterDigits :=
      match andThen (matchCount pyIsDigit 2 r) (matchChar ' ') with
      | some r2 => some r2
      | none => andThen (matchCount pyIsDigit 1 r) (matchChar ' ')
    andThen afterDigits (fun r3 =>
      andThen (matchPlus (fun c => ¬ pyIsSpace c) r3) (fun r4 =>
        andThen (matchChar ' ' r4) (matchCount pyIsDigit 4))))

/-- `BOILERPLATE_PATTERNS['en']` as a list of matchers, in source order. -/
def boilerplate_en : List (List Char → Option (List Char)) :=
  [bbcStep, yearCapsStep,
   fun l => matchLitCI "please enable javascript".toList l,
   fun l => matchLitCI "external content".toList l,
   fun l => matchLitCI "privacy policy".toList l,
   fun l => matchLitCI "terms of use".toList l,
   copyrightYearStep,
   fun l => matchLitCI "all rights reserved".toList l,
   publishedStep,
   fun l => matchLitCI "google scholar".toList l,
   doiStep,
   fun l => matchLitCI "et al.".toList l,
   ppStep]

/-- `BOILERPLATE_PATTERNS['ne']` as a list of matchers, in source order. -/
def boilerplate_ne : List (List Char → Option (List Char)) :=
  [nePublishedStep,
   fun l => matchLitCI "स्रोत:".toList l,
   fun l => matchLitCI "रिपब्लिक मिडिया".toList l,
   fun l => matchLitCI "लेख्नुहोस्।".toList l,
   fun l => matchLitCI "सहकार्य गरेर".toList l,
   fun l => matchLitCI "अन्य वेबसाइट".toList l,
   fun l => matchLitCI "गुगल स्कोलर".toList l]

/-- Alternatives of `forbidden_patterns['en']`, in source order. -/
def forbidden_en_alts : List (List Char) :=
  ["save".toList, "download".toList, "pdf".toList, "email".toList,
   "phone".toList, "advertisement".toList, "sponsor".toList]

/-- Try the alternatives of `\b(?:...)\b` at the current position: the first
case-insensitive literal that matches and is followed by a word boundary. -/
def tryWordAlts (alts : List (List Char)) (l : List Char) : Option (List Char) :=
  match alts with
  | [] => none
  | a :: rest =>
    match matchLitCI a l with
    | some r => if noWordAhead r then some r else tryWordAlts rest l
    | none => tryWordAlts rest l

/-- Scan for `re.sub(r'\b(?:alt|...)\b', '', s, flags=re.IGNORECASE)`:
a match can only start at a word boundary (every alternative starts with a
letter), and every alternative ends with a letter, so after a removal the
previous character is a word character. -/
def removeWordAltsGo (alts : List (List Char)) : Nat → Bool → List Char → List Char
  | 0, _, l => l
  | _ + 1, _, [] => []
  | fuel + 1, prevWord, c :: cs =>
    if ¬ prevWord then
      match tryWordAlts alts (c :: cs) with
      | some rest => removeWordAltsGo alts fuel true rest
      | none => c :: removeWordAltsGo alts fuel (pyIsWordChar c) cs
    else c :: removeWordAltsGo alts fuel (pyIsWordChar c) cs

/-- `re.sub(forbidden_patterns['en'], '', s, flags=re.IGNORECASE)`. -/
def remove_forbidden_en (l : List Char) : List Char :=
  removeWordAltsGo forbidden_en_alts (l.length + 1) false l

/-- Alternatives of `forbidden_patterns['ne']` (no word boundaries). -/
def forbidden_ne_alts : List (List Char) :=
  ["डाउनलोड".toList, "ईमेल".toList, "विज्ञापन".toList, "प्रायोजित".toList,
   "सदस्यता".toList]

/-- Try a plain alternation of literals at the current position. -/
def tryAlts (alts : List (List Char)) (l : List Char) : Option (List Char) :=
  match alts with
  | [] => none
  | a :: rest =>
    match matchLitCI a l with
    | some r => some r
    | none => tryAlts rest l

/-- `clean_text(text, lang)` of JsonDataCleaner.py: remove URLs, UI phrases,
scraper-failure sentinels, per-language boilerplate patterns and forbidden
terms, then collapse whitespace and strip. -/
def clean_text (text lang : List Char) : List Char :=
  let t1 := runRemove httpStep text
  let t2 := UI_PHRASES.foldl (fun t p => removeLitCI p t) t1
  let t3 := SCRAPER_FAILURES.foldl (fun t p => removeLitCI p t) t2
  let patterns :=
    if lang = "en".toList then boilerplate_en
    else if lang = "ne".toList then boilerplate_ne
    else []
  let t4 := patterns.foldl (fun t step => runRemove step t) t3
  let t5 :=
    if lang = "en".toList then remove_forbidden_en t4
    else if lang = "ne".toList then runRemove (tryAlts forbidden_ne_alts) t4
    else t4
  pyStrip (DC.collapseWs t5)

/-- Punctuation class of `remove_redundant`. -/
def redundantPunct (c : Char) : Bool := c = '!' ∨ c = '?' ∨ c = '.' ∨ c = ','

/-- Scan for `re.sub(r'([!?.,]){2,}', r'\1', text)`: a maximal run of at
least two punctuation characters is replaced by its last character (the last
repetition captured by the group). -/
def removeRedundantGo : Nat → List Char → List Char
  | 0, l => l
  | _ + 1, [] => []
  | fuel + 1, c :: cs =>
    if redundantPunct c ∧ (cs.takeWhile redundantPunct) ≠ [] then
      let run := (c :: cs).takeWhile redundantPunct
      run.getLastD c :: removeRedundantGo fuel ((c :: cs).dropWhile redundantPunct)
    else c :: removeRedundantGo fuel cs

/-- `remove_redundant(text)`. -/
def remove_redundant (text : List Char) : List Char :=
  removeRedundantGo (text.length + 1) text

/-- `count_capitalized_words(text)`. -/
def count_capitalized_words (text : List Char) : Nat :=
  (pySplit text).countP (fun w =>
    match w with
    | [] => false
    | c :: _ => pyIsUpper c)

/-- `segments[-1] = segments[-1] + segment_words`, at the word level. -/
def mergeLast {α : Type} (segs : List (List α)) (w : List α) : List (List α) :=
  segs.dropLast ++ [segs.getLastD [] ++ w]

/-- The `while i < len(words)` loop of `split_text_into_segments`, at the word
level (`i` is the loop index, `segs` the accumulated segments, and the fuel is
consumed once per iteration — `words.length` iterations always suffice when
`max_words ≥ 1`; for `max_words = 0` the Python loop does not terminate). -/
def segLoop {α : Type} (words : List α) (max_words min_words : Nat) :
    Nat → Nat → List (List α) → List (List α)
  | 0, _, segs => segs
  | fuel + 1, i, segs =>
    if i < words.length then
      let segment_words := (words.drop i).take max_words
      if i + max_words < words.length then
        segLoop words max_words min_words fuel (i + max_words) (segs ++ [segment_words])
      else if (¬ segs.isEmpty) ∧ segment_words.length < min_words then
        mergeLast segs segment_words
      else segs ++ [segment_words]
    else segs

/-- `split_text_into_segments(text, max_words, min_words)`.  The source
builds each segment string with `" ".join`; here the loop runs on the word
lists and the join is applied at the end (`" ".join` distributes over the
single tail merge). -/
def split_text_into_segments (text : List Char) (max_words min_words : Nat) :
    List (List Char) :=
  let words := pySplit text
  if words.length ≤ max_words then [text]
  else (segLoop words max_words min_words words.length 0 []).map joinSpace

/-- `enforce_word_count(question, min_words=4, max_words=8)`. -/
def enforce_word_count (question : List Char) (min_words max_words : Nat) : List Char :=
  let words := pySplit question
  if max_words < words.length then
    let result := joinSpace (words.take max_words)
    if result.getLast? = some '?' then result else result ++ ['?']
  else question

/-- `NEPALI_STOP_WORDS`. -/
def NEPALI_STOP_WORDS : List (List Char) :=
  ["छ".toList, "गरेको".toList, "गरी".toList, "को".toList, "र".toList, "मा".toList,
   "भन्ने".toList, "ले".toList, "का".toList, "हो".toList, "भएको".toList,
   "तर".toList, "यो".toList, "त्यो".toList, "पनि".toList, "भने".toList,
   "छन्".toList, "गर्न".toList, "हुन".toList, "हुन्छ".toList, "भनिए".toList]

/-- First-occurrence deduplication (the key order of a `Counter`). -/
def dedupFirstGo {α : Type} [DecidableEq α] (seen : List α) : List α → List α
  | [] => []
  | x :: xs => if x ∈ seen then dedupFirstGo seen xs else x :: dedupFirstGo (x :: seen) xs

/-- The distinct elements of `l` in first-occurrence order. -/
def dedupFirst {α : Type} [DecidableEq α] (l : List α) : List α := dedupFirstGo [] l

/-- `Counter(l).most_common(n)` (keys only): the distinct elements sorted by
multiplicity, descending, ties in first-occurrence order, truncated to `n`. -/
def most_common {α : Type} [DecidableEq α] (n : Nat) (l : List α) : List α :=
  let d := dedupFirst l
  ((((List.range (l.length + 1)).reverse).map
      (fun k => d.filter (fun x => l.count x = k))).flatten).take n

/-- The result of `identify_relation` (`token.text` / `ent.text` strings); the
spaCy parse behind it is an external collaborator. -/
structure Relation where
  subjects : List (List Char)
  verbs : List (List Char)
  objects : List (List Char)
  locations : List (List Char)
  organizations : List (List Char)

/-- The external collaborators of the pipeline: nltk `sent_tokenize`, the
spaCy token stream of `generate_summary`'s English branch (the
lemma/stop-word/alpha filtering happens inside spaCy; the `.lower()` applied
to each token is repository code and is modelled explicitly), and the spaCy
parse behind `identify_relation`. -/
structure Collab where
  sent_tokenize : List Char → List (List Char)
  en_tokens : List Char → List (List Char)
  relation : List (List Char) → Relation

/-- `generate_summary(text, lang, top_n=100)`. -/
def generate_summary (col : Collab) (text lang : List Char) : List (List Char) :=
  let tokens :=
    if lang = "en".toList then (col.en_tokens text).map lowerList
    else (pySplit text).filter (fun w => w ∉ NEPALI_STOP_WORDS ∧ 3 < w.length)
  most_common 100 tokens

/-- `generate_question(text, lang)`. -/
def generate_question (col : Collab) (text lang : List Char) : List Char :=
  if ¬ (lang = "en".toList ∨ lang = "ne".toList) then
    "Question generation in the specified language is not supported yet.".toList
  else if lang = "en".toList then
    let keywords := generate_summary col text lang
    let r := col.relation keywords
    let question :=
      if r.locations ≠ [] then
        let subject_str := r.locations.headD []
        let context := keywords.filter (fun w => lowerList w ≠ lowerList subject_str)
        "Where ".toList ++ subject_str ++ [' '] ++ joinSpace context ++ "?".toList
      else if r.subjects ≠ [] ∧ r.verbs ≠ [] then
        let subject_str := r.subjects.headD []
        let context := keywords.filter (fun w => lowerList w ≠ lowerList subject_str)
        let verb_texts := (r.verbs).map lowerList
        let question_word :=
          if verb_texts.contains "training".toList then "What".toList else "How".toList
        question_word ++ [' '] ++ subject_str ++ [' '] ++ joinSpace context ++ "?".toList
      else
        "What is the relationship between ".toList ++ joinCommaSpace keywords ++ "?".toList
    enforce_word_count question 4 8
  else
    let keywords := generate_summary col text lang
    let r := col.relation keywords
    let question :=
      if r.locations ≠ [] then
        let subject_str := r.locations.headD []
        let context := keywords.filter (fun w => w ≠ subject_str)
        "कहाँ ".toList ++ subject_str ++ [' '] ++ joinSpace context ++ "?".toList
      else if r.subjects ≠ [] ∧ r.verbs ≠ [] then
        let subject_str := r.subjects.headD []
        let context := keywords.filter (fun w => w ≠ subject_str)
        "के ".toList ++ subject_str ++ [' '] ++ joinSpace context ++ " हुन्छ?".toList
      else
        "के यी शब्दहरूको सम्बन्ध के हो: ".toList ++ joinCommaSpace keywords ++ "?".toList
    enforce_word_count question 4 8

/-- `NEPALI_UNICODE_RANGE` as a character test: `[ऀ-ॿ‌-‍।-॥]`. -/
def isNepaliChar (c : Char) : Bool :=
  (0x900 ≤ c.toNat ∧ c.toNat ≤ 0x97F) ∨ (0x200C ≤ c.toNat ∧ c.toNat ≤ 0x200D) ∨
  (0x964 ≤ c.toNat ∧ c.toNat ≤ 0x965)

/-- The language assignment of `process_single_query`:
`'ne' if re.search(f'[{NEPALI_UNICODE_RANGE}]', target_text) else 'en'`. -/
def detect_lang (target_text : List Char) : List Char :=
  if target_text.any isNepaliChar then "ne".toList else "en".toList

/-- A parsed input record; an absent key is the empty string (`query.get(k, '')`). -/
structure Query where
  input : List Char
  target : List Char
  value : List Char
deriving DecidableEq, Repr

end JC

/-- A question-context-answer record (the output unit of both pipelines). -/
structure QCA where
  question : List Char
  context : List Char
  answer : List Char
deriving DecidableEq, Repr

namespace JC

/-- `semantic_validation(question, context, answer)`. -/
def semantic_validation (question context answer : List Char) : Bool :=
  ¬ (pyStrip question = pyStrip context ∧ pyStrip context = pyStrip answer)

/-- The body of the `for segment in segments` loop of `process_single_query`:
the record appended for one segment, if any. -/
def process_segment (col : Collab) (lang segment : List Char) : Option QCA :=
  let sentences := col.sent_tokenize segment
  if sentences = [] then none
  else
    let answer := joinSpace sentences
    let context := joinSpace (generate_summary col answer lang)
    let question := generate_question col answer lang
    if (question = [] ∨ context = [] ∨ answer = []) ∨
        (pyStrip question = pyStrip context ∧ pyStrip context = pyStrip answer) then none
    else if ¬ semantic_validation question context answer then none
    else some ⟨question, context, answer⟩

/-- `process_single_query(query)`. -/
def process_single_query (col : Collab) (query : Query) : List QCA :=
  let target_text0 := if query.target ≠ [] then query.target else query.value
  let lang := detect_lang target_text0
  let input_text := clean_text query.input lang
  let target_text := remove_redundant (clean_text target_text0 lang)
  let words := pySplit target_text
  if words ≠ [] ∧
      (mkRat (count_capitalized_words target_text) words.length > mkRat 2 5) then []
  else
    let input_wc := (pySplit input_text).length
    let target_wc := (pySplit target_text).length
    if target_wc < TARGET_LOWER then []
    else if input_wc < INPUT_LOWER ∧ target_wc < TARGET_LOWER then []
    else
      (split_text_into_segments target_text TARGET_UPPER TARGET_LOWER).filterMap
        (process_segment col lang)

/-- The deduplication key: the trimmed (question, context, answer) triple. -/
def qcaKey (e : QCA) : List Char × List Char × List Char :=
  (pyStrip e.question, pyStrip e.context, pyStrip e.answer)

/-- The `seen`-set loop of `process_batch`. -/
def dedupSeen : List QCA → List (List Char × List Char × List Char) → List QCA
  | [], _ => []
  | x :: xs, seen =>
    if qcaKey x ∈ seen then dedupSeen xs seen
    else x :: dedupSeen xs (qcaKey x :: seen)

/-- The `for res in batch_results: if res: processed_queries.extend(res)` loop. -/
def gatherResults (batch_results : List (List QCA)) : List QCA :=
  batch_results.foldl (fun acc r => if r.isEmpty then acc else acc ++ r) []

/-- `process_batch`: the records actually written for one batch (gather the
per-query results, drop duplicates by trimmed triple). -/
def process_batch (batch_results : List (List QCA)) : List QCA :=
  dedupSeen (gatherResults batch_results) []

/-- One write performed by `main`: the active file number, the records
written, the file's byte size after the write (as seen by
`os.path.getsize` after the flush; `jsonLen` models
`len(json.dumps(item, ensure_ascii=False) + "\n")` in bytes), and whether the
post-batch size check fired (`size >= MAX_FILE_SIZE`; the check only runs
after full batches). -/
structure WriteEvent where
  fileIdx : Nat
  items : List QCA
  sizeAfter : Nat
  rotated : Bool
deriving DecidableEq, Repr

/-- The read-batch-write-rotate loop of `main`, as the sequence of write
events it performs.  `file` is `file_counter`, `size` the current output
file's byte size, `batch` the accumulated partial batch. -/
def main_loop (col : Collab) (jsonLen : QCA → Nat) :
    Nat → Nat → List Query → List Query → List WriteEvent
  | file, size, batch, [] =>
    if batch = [] then []
    else
      let items := process_batch (batch.map (process_single_query col))
      [⟨file, items, size + (items.map jsonLen).sum, false⟩]
  | file, size, batch, q :: qs =>
    let batch2 := batch ++ [q]
    if BATCH_SIZE ≤ batch2.length then
      let items := process_batch (batch2.map (process_single_query col))
      let size2 := size + (items.map jsonLen).sum
      if MAX_FILE_SIZE ≤ size2 then
        ⟨file, items, size2, true⟩ :: main_loop col jsonLen (file + 1) 0 [] qs
      else
        ⟨file, items, size2, false⟩ :: main_loop col jsonLen file size2 [] qs
    else main_loop col jsonLen file size batch2 qs

end JC

namespace DC

/-- A parsed entry of `process_data_chunk`: a dict whose keys `input`,
`value`, `target` may each be present or absent. -/
structure PyEntry where
  hasInput : Bool
  input : List Char
  hasValue : Bool
  value : List Char
  hasTarget : Bool
  target : List Char
deriving DecidableEq, Repr

/-- Python truthiness of `dict.get(k)` (absent key is `None`). -/
def truthy : Option (List Char) → Bool
  | none => false
  | some s => ¬ s.isEmpty

/-- Python `x or y` on `dict.get` results. -/
def pyOr (a b : Option (List Char)) : Option (List Char) := if truthy a then a else b

/-- `.replace('\n', ' ').replace('\r', ' ')`. -/
def replaceNl (l : List Char) : List Char :=
  l.map (fun c => if c = '\n' ∨ c = '\r' then ' ' else c)

/-- The cleaning chain applied to both fields in `process_data_chunk`. -/
def cleanChain (t : List Char) : List Char :=
  remove_leading_numbers (remove_repeated_words (clean_special_characters (clean_text t)))

/-- `' '.join(cleaned_target.split()[:5])`. -/
def firstFiveWords (cleaned_target : List Char) : List Char :=
  joinSpace ((pySplit cleaned_target).take 5)

/-- The general (`if not processed`) branch of `process_data_chunk`;
`cleaned_input` is the input text as possibly already mutated by the
long-answer branch. -/
def process_branch2 (pick : Nat) (cleaned_input cleaned_target : List Char) : Option QCA :=
  if has_minimum_word_count cleaned_input LOWER_WORD_THRESHOLD ∧
      is_target_double_size cleaned_input cleaned_target ∧
      should_include_answer cleaned_target ∧
      ¬ has_forbidden_words cleaned_target ∧
      ¬ is_overly_redundant cleaned_input cleaned_target (mkRat 3 5) then
    let ci :=
      if ¬ is_valid_question cleaned_input then
        if has_minimum_word_count cleaned_input (LOWER_WORD_THRESHOLD + 2) then
          "What is ".toList ++ cleaned_input ++ "?".toList
        else
          "What is ".toList ++ cleaned_input ++ [' '] ++ firstFiveWords cleaned_target ++ "?".toList
      else cleaned_input
    if is_valid_question ci then
      some ⟨ci, truncate_context (generate_context pick cleaned_target) cleaned_target (mkRat 1 2),
            cleaned_target⟩
    else none
  else none

/-- The body of the `for entry in data_chunk` loop of `process_data_chunk`:
the record appended for one entry, if any.  `pick` models the
`random.choice` template index of `generate_context`. -/
def process_core (pick : Nat) (cleaned_input cleaned_target : List Char) : Option QCA :=
  if pyStrip cleaned_target = [] then none
  else
    let target_words := (pySplit cleaned_target).length
    if 200 < target_words ∧ should_include_answer cleaned_target ∧
        ¬ has_forbidden_words cleaned_target ∧
        ¬ UI_PHRASES.any (fun p => containsSub p (lowerList cleaned_target)) then
      let ci1 :=
        if (pySplit cleaned_input).length < LOWER_WORD_THRESHOLD then
          "What is ".toList ++ cleaned_input ++ [' '] ++ firstFiveWords cleaned_target ++ "?".toList
        else cleaned_input
      let ci2 :=
        if ¬ is_valid_question ci1 then "What is ".toList ++ ci1 ++ "?".toList else ci1
      if ¬ is_overly_redundant ci2 cleaned_target (mkRat 3 5) then
        some ⟨ci2, truncate_context (generate_context pick cleaned_target) cleaned_target (mkRat 1 2),
              cleaned_target⟩
      else process_branch2 pick ci2 cleaned_target
    else process_branch2 pick cleaned_input cleaned_target

def process_entry (pick : Nat) (entry : PyEntry) : Option QCA :=
  let getValue : Option (List Char) := if entry.hasValue then some entry.value else none
  let getTarget : Option (List Char) := if entry.hasTarget then some entry.target else none
  if ¬ entry.hasInput then none
  else if ¬ truthy (pyOr getValue getTarget) then none
  else
    process_core pick (cleanChain (replaceNl entry.input))
      (cleanChain (replaceNl (if entry.hasValue then entry.value else entry.target)))

/-- `process_data_chunk(data_chunk)`; `pick i` is the template index used for
entry number `i`. -/
def process_data_chunk (pick : Nat → Nat) (data_chunk : List PyEntry) : List QCA :=
  data_chunk.enum.filterMap (fun p => process_entry (pick p.1) p.2)

end DC

/-! Concrete inputs used in the closed statements below. -/

/-- A collaborator instantiation: `sent_tokenize` returns one fixed sentence,
the English token stream is the two tokens `ab`, `cd`, and the spaCy parse
finds no subjects, verbs, objects, locations or organizations. -/
def ceCollab : JC.Collab :=
  ⟨fun _ => ["ab cd".toList], fun _ => ["ab".toList, "cd".toList],
   fun _ => ⟨[], [], [], [], []⟩⟩

/-- 150 words `z z ... z`. -/
def target150 : List Char := (List.replicate 149 "z ".toList).flatten ++ "z".toList

/-- A query whose target passes every filter of `process_single_query`. -/
def ceQuery : JC.Query := ⟨[], target150, []⟩

/-- A query rejected immediately (empty target). -/
def trivQuery : JC.Query := ⟨[], [], []⟩

/-- Twenty queries: two full batches, the first containing `ceQuery`. -/
def ceQueries : List JC.Query :=
  List.replicate 9 trivQuery ++ [ceQuery] ++ List.replicate 10 trivQuery

/-- 201 words `a b a b ... a` (no adjacent repetition). -/
def dcTarget : List Char := (List.replicate 100 "a b ".toList).flatten ++ "a".toList

/-- An entry taken by the long-answer branch of `process_data_chunk`. -/
def dcEntry : DC.PyEntry := ⟨true, "qa qb qc qd qe".toList, false, [], true, dcTarget⟩

/-- 201 words starting with the scraper sentinel `error`. -/
def err201 : List Char := "error".toList ++ (List.replicate 200 " z".toList).flatten

/-! ### Generic lemmas about the string model -/

namespace Py

theorem dropTrailing_sublist (l : List Char) : (dropTrailing l).Sublist l := by
  induction l with
  | nil => exact List.Sublist.refl _
  | cons c cs ih =>
    simp only [dropTrailing]
    split
    · exact List.nil_sublist _
    · exact ih.cons₂ c

theorem pyStrip_sublist (l : List Char) : (pyStrip l).Sublist l :=
  (dropTrailing_sublist _).trans (List.dropWhile_sublist _)

theorem mem_pyStrip {c : Char} {l : List Char} (h : c ∈ pyStrip l) : c ∈ l :=
  (pyStrip_sublist l).subset h

theorem dropTrailing_eq_self {l : List Char}
    (h : ∀ c, l.getLast? = some c → pyIsSpace c = false) : dropTrailing l = l := by
  induction l with
  | nil => rfl
  | cons a as ih =>
    cases as with
    | nil =>
      have ha := h a rfl
      simp [dropTrailing, ha]
    | cons b bs =>
      have hih : dropTrailing (b :: bs) = b :: bs := by
        refine ih (fun c hc => h c ?_)
        rw [List.getLast?_cons_cons]
        exact hc
      have hstep : dropTrailing (a :: b :: bs) =
          if dropTrailing (b :: bs) = [] ∧ pyIsSpace a = true then []
          else a :: dropTrailing (b :: bs) := rfl
      rw [hstep, hih]
      simp

theorem dropTrailing_getLast {l : List Char} {c : Char}
    (h : (dropTrailing l).getLast? = some c) : pyIsSpace c = false := by
  induction l with
  | nil => simp [dropTrailing] at h
  | cons a as ih =>
    simp only [dropTrailing] at h
    split at h
    · simp at h
    · rename_i hcond
      cases hr : dropTrailing as with
      | nil =>
        rw [hr] at h hcond
        simp at h
        subst h
        simpa using hcond
      | cons d ds =>
        rw [hr] at h
        rw [List.getLast?_cons_cons] at h
        exact ih (hr ▸ h)

theorem dropTrailing_head {l : List Char} {c : Char} {r : List Char}
    (h : dropTrailing l = c :: r) : ∃ t, l = c :: t := by
  cases l with
  | nil => simp [dropTrailing] at h
  | cons a as =>
    simp only [dropTrailing] at h
    split at h
    · simp at h
    · injection h with h1 h2
      exact ⟨as, by rw [h1]⟩

theorem dropWhile_head_not {p : Char → Bool} {l : List Char} {c : Char} {t : List Char}
    (h : l.dropWhile p = c :: t) : p c = false := by
  induction l with
  | nil => simp at h
  | cons a as ih =>
    rw [List.dropWhile_cons] at h
    split at h
    · exact ih h
    · rename_i hp
      cases h
      simpa using hp

theorem pyStrip_head_not_space {l : List Char} {c : Char} {r : List Char}
    (h : pyStrip l = c :: r) : pyIsSpace c = false := by
  obtain ⟨t, ht⟩ := dropTrailing_head h
  exact dropWhile_head_not ht

theorem pyStrip_getLast {l : List Char} {c : Char}
    (h : (pyStrip l).getLast? = some c) : pyIsSpace c = false :=
  dropTrailing_getLast h

theorem pyStrip_eq_self {l : List Char}
    (hh : ∀ c t, l = c :: t → pyIsSpace c = false)
    (hl : ∀ c, l.getLast? = some c → pyIsSpace c = false) : pyStrip l = l := by
  have h1 : l.dropWhile pyIsSpace = l := by
    cases l with
    | nil => rfl
    | cons a as =>
      rw [List.dropWhile_cons, if_neg]
      simp [hh a as rfl]
  rw [pyStrip, h1]
  exact dropTrailing_eq_self hl

theorem splitRuns_sep_cons {sep : Char → Bool} {a : Char} (l : List Char)
    (ha : sep a = true) : splitRuns sep (a :: l) = splitRuns sep l := by
  cases l with
  | nil => simp [splitRuns, ha]
  | cons d cs => simp [splitRuns, ha]

theorem splitRuns_cons_sep {sep : Char → Bool} {a b : Char} (l : List Char)
    (ha : sep a = false) (hb : sep b = true) :
    splitRuns sep (a :: b :: l) = [a] :: splitRuns sep l := by
  simp [splitRuns, ha, hb]

theorem splitRuns_cons_cons {sep : Char → Bool} {a b : Char} (l : List Char)
    (ha : sep a = false) (hb : sep b = false) :
    splitRuns sep (a :: b :: l) =
      match splitRuns sep (b :: l) with
      | [] => [[a]]
      | w :: ws => (a :: w) :: ws := by
  simp [splitRuns, ha, hb]

theorem mem_splitRuns {sep : Char → Bool} {l : List Char} :
    ∀ w ∈ splitRuns sep l, w ≠ [] ∧ ∀ c ∈ w, sep c = false := by
  induction l using splitRuns.induct sep with
  | case1 => simp [splitRuns]
  | case2 c hc => simp [splitRuns, hc]
  | case3 c hc =>
    simp only [splitRuns, if_neg hc, List.mem_singleton]
    rintro w rfl
    refine ⟨by simp, ?_⟩
    intro x hx
    rw [List.mem_singleton] at hx
    subst hx
    simpa using hc
  | case4 c d cs hc ih =>
    rw [splitRuns_sep_cons _ hc]
    exact ih
  | case5 c d cs hc hd ih =>
    rw [splitRuns_cons_sep _ (by simpa using hc) hd]
    simp only [List.mem_cons]
    rintro w (rfl | hw)
    · exact ⟨by simp, by rintro x hx; rw [List.mem_singleton] at hx; subst hx; simpa using hc⟩
    · exact ih w hw
  | case6 c d cs hc hd heq ih =>
    rw [splitRuns_cons_cons _ (by simpa using hc) (by simpa using hd), heq]
    simp only [List.mem_cons]
    rintro w (rfl | hw)
    · exact ⟨by simp, by rintro x hx; rw [List.mem_singleton] at hx; subst hx; simpa using hc⟩
    · simp at hw
  | case7 c d cs hc hd w ws heq ih =>
    rw [splitRuns_cons_cons _ (by simpa using hc) (by simpa using hd), heq]
    simp only [List.mem_cons]
    rintro u (rfl | hu)
    · have hw := ih w (by rw [heq]; simp)
      refine ⟨by simp, ?_⟩
      intro x hx
      rcases List.mem_cons.mp hx with rfl | hx
      · simpa using hc
      · exact hw.2 x hx
    · exact ih u (by rw [heq]; simp [hu])

theorem splitRuns_word_append {sep : Char → Bool} {s : Char} (hs : sep s = true) :
    ∀ (w rest : List Char), w ≠ [] → (∀ c ∈ w, sep c = false) →
      splitRuns sep (w ++ s :: rest) = w :: splitRuns sep rest := by
  intro w
  induction w with
  | nil => intro rest h; exact absurd rfl h
  | cons a w' ih =>
    intro rest _ hall
    have ha : sep a = false := hall a (by simp)
    cases w' with
    | nil =>
      rw [List.cons_append, List.nil_append, splitRuns_cons_sep _ ha hs]
    | cons b w'' =>
      have hb : sep b = false := hall b (by simp)
      have hrec := ih rest (by simp) (fun c hc => hall c (List.mem_cons_of_mem a hc))
      simp only [List.cons_append] at hrec ⊢
      rw [splitRuns_cons_cons _ ha hb, hrec]

theorem splitRuns_single_word {sep : Char → Bool} :
    ∀ (w : List Char), w ≠ [] → (∀ c ∈ w, sep c = false) → splitRuns sep w = [w] := by
  intro w
  induction w with
  | nil => intro h; exact absurd rfl h
  | cons a w' ih =>
    intro _ hall
    have ha : sep a = false := hall a (by simp)
    cases w' with
    | nil => simp [splitRuns, ha]
    | cons b w'' =>
      have hb : sep b = false := hall b (by simp)
      have hrec := ih (by simp) (fun c hc => hall c (List.mem_cons_of_mem a hc))
      rw [splitRuns_cons_cons _ ha hb, hrec]

theorem joinWith_cons_cons (sep : List Char) (w w2 : List Char) (ws : List (List Char)) :
    joinWith sep (w :: w2 :: ws) = w ++ sep ++ joinWith sep (w2 :: ws) := rfl

theorem pySplit_joinSpace {ws : List (List Char)}
    (h : ∀ w ∈ ws, w ≠ [] ∧ ∀ c ∈ w, pyIsSpace c = false) :
    pySplit (joinSpace ws) = ws := by
  induction ws with
  | nil => rfl
  | cons w ws ih =>
    cases ws with
    | nil =>
      exact splitRuns_single_word w (h w (by simp)).1 (h w (by simp)).2
    | cons w2 ws2 =>
      have step : joinSpace (w :: w2 :: ws2) = w ++ ' ' :: joinSpace (w2 :: ws2) := by
        rw [joinSpace, joinWith_cons_cons]
        simp [joinSpace, List.append_assoc]
      rw [pySplit, step]
      rw [splitRuns_word_append (by decide) w _ (h w (by simp)).1 (h w (by simp)).2]
      exact congrArg _ (ih (fun u hu => h u (List.mem_cons_of_mem w hu)))

theorem joinWith_append_one (sep : List Char) (x : List Char) :
    ∀ (ws : List (List Char)) (w : List Char),
      joinWith sep (ws ++ [w ++ x]) = joinWith sep (ws ++ [w]) ++ x := by
  intro ws
  induction ws with
  | nil => intro w; simp [joinWith]
  | cons u us ih =>
    intro w
    cases us with
    | nil => simp [joinWith, List.append_assoc]
    | cons v vs =>
      simp only [List.cons_append]
      rw [joinWith_cons_cons, joinWith_cons_cons]
      have := ih w
      simp only [List.cons_append] at this
      rw [this]
      simp [List.append_assoc]

theorem joinSpace_ne_nil {ws : List (List Char)} (hne : ws ≠ [])
    (h : ∀ w ∈ ws, w ≠ []) : joinSpace ws ≠ [] := by
  cases ws with
  | nil => exact absurd rfl hne
  | cons w ws2 =>
    cases ws2 with
    | nil => exact h w (by simp)
    | cons w2 ws3 =>
      rw [joinSpace, joinWith_cons_cons]
      intro hcontra
      have := h w (by simp)
      simp only [List.append_assoc, List.append_eq_nil] at hcontra
      exact this hcontra.1

theorem scanRemove_sublist {step : List Char → Option (List Char)}
    (hstep : ∀ t r, step t = some r → r.Sublist t) (fuel : Nat) :
    ∀ l, (scanRemove step fuel l).Sublist l := by
  induction fuel with
  | zero => intro l; exact List.Sublist.refl _
  | succ f ih =>
    intro l
    cases l with
    | nil => exact List.Sublist.refl _
    | cons c cs =>
      simp only [scanRemove]
      cases hs : step (c :: cs) with
      | none => exact (ih cs).cons₂ c
      | some rest => exact (ih rest).trans (hstep _ _ hs)

theorem scanRemove_eq_self {step : List Char → Option (List Char)} (fuel : Nat) :
    ∀ l, (∀ t, t.Sublist l → step t = none) → scanRemove step fuel l = l := by
  induction fuel with
  | zero => intro l _; rfl
  | succ f ih =>
    intro l h
    cases l with
    | nil => rfl
    | cons c cs =>
      simp only [scanRemove]
      rw [h (c :: cs) (List.Sublist.refl _)]
      rw [ih cs (fun t ht => h t (ht.trans (List.sublist_cons_self c cs)))]

end Py

namespace DC

theorem collapseGo_cons_space {a : Char} {l : List Char} (prev : Bool)
    (ha : pyIsSpace a = true) :
    collapseGo prev (a :: l) =
      if prev then collapseGo true l else ' ' :: collapseGo true l := by
  simp only [collapseGo, if_pos ha, ha]
  cases prev <;> simp

theorem collapseGo_cons_not {a : Char} {l : List Char} (prev : Bool)
    (ha : pyIsSpace a = false) :
    collapseGo prev (a :: l) = a :: collapseGo false l := by
  simp [collapseGo, ha]

theorem mem_collapseGo {c : Char} :
    ∀ (l : List Char) (prev : Bool), c ∈ collapseGo prev l →
      (c ∈ l ∧ pyIsSpace c = false) ∨ c = ' ' := by
  intro l
  induction l with
  | nil => intro prev h; simp [collapseGo] at h
  | cons a as ih =>
    intro prev h
    by_cases ha : pyIsSpace a = true
    · rw [collapseGo_cons_space prev ha] at h
      have hmem : c ∈ collapseGo true as ∨ c = ' ' := by
        cases prev with
        | false =>
          simp only [if_neg (by simp : ¬ (false = true))] at h
          rcases List.mem_cons.mp h with rfl | h2
          · exact Or.inr rfl
          · exact Or.inl h2
        | true =>
          simp only [if_pos rfl] at h
          exact Or.inl h
      rcases hmem with h2 | h2
      · rcases ih true h2 with ⟨h3, h4⟩ | h3
        · exact Or.inl ⟨List.mem_cons_of_mem a h3, h4⟩
        · exact Or.inr h3
      · exact Or.inr h2
    · have ha2 : pyIsSpace a = false := by simpa using ha
      rw [collapseGo_cons_not prev ha2] at h
      rcases List.mem_cons.mp h with rfl | h2
      · exact Or.inl ⟨by simp, ha2⟩
      · rcases ih false h2 with ⟨h3, h4⟩ | h3
        · exact Or.inl ⟨List.mem_cons_of_mem a h3, h4⟩
        · exact Or.inr h3

theorem collapseGo_idem : ∀ (l : List Char) (prev : Bool),
    collapseGo prev (collapseGo prev l) = collapseGo prev l := by
  intro l
  induction l with
  | nil => intro prev; rfl
  | cons a as ih =>
    intro prev
    by_cases ha : pyIsSpace a = true
    · rw [collapseGo_cons_space prev ha]
      cases prev with
      | true =>
        simp only [if_pos rfl]
        exact ih true
      | false =>
        simp only [if_neg (by simp : ¬ (false = true))]
        rw [collapseGo_cons_space false (by decide)]
        simp only [if_neg (by simp : ¬ (false = true))]
        rw [ih true]
    · have ha2 : pyIsSpace a = false := by simpa using ha
      rw [collapseGo_cons_not prev ha2, collapseGo_cons_not prev ha2, ih false]

theorem collapseGo_getLast {c : Char} :
    ∀ (l : List Char) (prev : Bool), l.getLast? = some c → pyIsSpace c = false →
      (collapseGo prev l).getLast? = some c := by
  intro l
  induction l with
  | nil => intro prev h; simp at h
  | cons a as ih =>
    intro prev h hc
    cases as with
    | nil =>
      simp only [List.getLast?_singleton, Option.some.injEq] at h
      subst h
      rw [collapseGo_cons_not prev hc]
      rfl
    | cons b bs =>
      rw [List.getLast?_cons_cons] at h
      have htail : ∀ pv : Bool, ((collapseGo pv (b :: bs)).getLast? = some c) :=
        fun pv => ih pv h hc
      by_cases ha : pyIsSpace a = true
      · rw [collapseGo_cons_space prev ha]
        cases prev with
        | true => simpa using htail true
        | false =>
          simp only [if_neg (by simp : ¬ (false = true))]
          have := htail true
          cases htl : collapseGo true (b :: bs) with
          | nil => rw [htl] at this; simp at this
          | cons d ds =>
            rw [htl] at this
            rw [List.getLast?_cons_cons]
            exact this
      · have ha2 : pyIsSpace a = false := by simpa using ha
        rw [collapseGo_cons_not prev ha2]
        have := htail false
        cases htl : collapseGo false (b :: bs) with
        | nil => rw [htl] at this; simp at this
        | cons d ds =>
          rw [htl] at this
          rw [List.getLast?_cons_cons]
          exact this

end DC


/-! ### Claims C7, C8, C9, C10 -/

/-- C7: `is_overly_redundant(input_text, answer, ratio)` returns true exactly
when the fraction of lower-cased answer words that are members of the
lower-cased input word set is at least the ratio, and an answer that splits
into no words (in particular the empty answer) is treated as maximally
redundant: the result is true for every input. -/
theorem C7_is_overly_redundant_spec :
    (∀ (input_text answer : List Char) (threshold : ℚ),
      DC.is_overly_redundant input_text answer threshold = true ↔
        (pySplit (lowerList answer) = [] ∨
          threshold ≤
            (((pySplit (lowerList answer)).countP
                (fun w => (pySplit (lowerList input_text)).contains w) : ℚ) /
              ((pySplit (lowerList answer)).length : ℚ)))) ∧
    (∀ (input_text : List Char) (threshold : ℚ),
      DC.is_overly_redundant input_text [] threshold = true) := by
  constructor
  · intro input_text answer threshold
    simp only [DC.is_overly_redundant]
    by_cases h : pySplit (lowerList answer) = []
    · simp [h]
    · rw [if_neg h]
      simp only [h, false_or]
      constructor
      · intro hdec
        have hprop := of_decide_eq_true hdec
        rw [ge_iff_le, Rat.mkRat_eq_div] at hprop
        push_cast at hprop
        exact hprop
      · intro hle
        apply decide_eq_true
        rw [ge_iff_le, Rat.mkRat_eq_div]
        push_cast
        exact hle
  · intro input_text threshold
    rfl

/-- C8 (amended): `should_include_answer(answer)` returns true exactly when
the trimmed answer ends with a period, or its word count exceeds 200 and none
of the unwanted phrases — the UI phrases together with the scraper-failure
sentinels — occurs as a substring of the lower-cased answer. -/
theorem C8_should_include_answer_spec :
    ∀ answer : List Char,
      DC.should_include_answer answer = true ↔
        ((pyStrip answer).getLast? = some '.' ∨
          (200 < (pySplit answer).length ∧
            ∀ p ∈ DC.UI_PHRASES ++ DC.SCRAPER_FAILURES,
              containsSub p (lowerList answer) = false)) := by
  intro answer
  simp only [DC.should_include_answer]
  by_cases h1 : (pyStrip answer).getLast? = some '.'
  · simp [h1]
  · rw [if_neg h1]
    simp only [h1, false_or]
    constructor
    · intro h
      split at h
      · rename_i hcond
        refine ⟨hcond.1, fun p hp => ?_⟩
        by_contra hcontra
        exact hcond.2 (List.any_eq_true.mpr
          ⟨p, hp, by simpa using hcontra⟩)
      · exact absurd h (by simp)
    · rintro ⟨hwc, hall⟩
      have hna : ¬ (DC.UI_PHRASES ++ DC.SCRAPER_FAILURES).any
          (fun p => containsSub p (lowerList answer)) = true := by
        rw [List.any_eq_true]
        rintro ⟨p, hp, hc⟩
        rw [hall p hp] at hc
        exact absurd hc (by simp)
      rw [if_pos ⟨hwc, hna⟩]

set_option maxRecDepth 8000 in
/-- C8 counterexample: the claim as stated is false twice over.  The answer
`"a!"` ends with the sentence terminator `!`, yet `should_include_answer`
rejects it (the code only accepts a trailing period); and a 201-word answer
containing the scraper sentinel `error` but no UI/navigation phrase satisfies
the claim's acceptance condition, yet the code rejects it (the code's phrase
check also covers the scraper-failure sentinels). -/
theorem C8_counterexample :
    (DC.should_include_answer "a!".toList = false ∧
      (pyStrip "a!".toList).getLast? = some '!') ∧
    (DC.should_include_answer err201 = false ∧
      200 < (pySplit err201).length ∧
      ∀ p ∈ DC.UI_PHRASES, containsSub p (lowerList err201) = false) := by
  constructor
  · exact ⟨by decide, by decide⟩
  · refine ⟨by decide, by decide, by decide⟩

/-- C9: the word-count enforcement pass with band (4, 8): a question of more
than 8 words becomes exactly its first 8 words joined, with a terminal `?`
appended when absent (so the result again has exactly 8 words); a question of
at most 8 words — even one of fewer than 4 — is returned unchanged. -/
theorem C9_enforce_word_count_spec :
    ∀ question : List Char,
      (8 < (pySplit question).length →
        JC.enforce_word_count question 4 8 =
          joinSpace ((pySplit question).take 8) ++
            (if (joinSpace ((pySplit question).take 8)).getLast? = some '?'
             then [] else ['?']) ∧
        (pySplit (JC.enforce_word_count question 4 8)).length = 8) ∧
      ((pySplit question).length ≤ 8 →
        JC.enforce_word_count question 4 8 = question) := by
  intro question
  have hprops : ∀ w ∈ (pySplit question).take 8, w ≠ [] ∧ ∀ c ∈ w, pyIsSpace c = false :=
    fun w hw => mem_splitRuns w (List.take_subset 8 _ hw)
  constructor
  · intro h8
    have hlen8 : ((pySplit question).take 8).length = 8 := by
      rw [List.length_take]
      omega
    simp only [JC.enforce_word_count]
    rw [if_pos h8]
    by_cases hq : (joinSpace ((pySplit question).take 8)).getLast? = some '?'
    · rw [if_pos hq, if_pos hq]
      refine ⟨by simp, ?_⟩
      rw [pySplit_joinSpace hprops, hlen8]
    · rw [if_neg hq, if_neg hq]
      refine ⟨rfl, ?_⟩
      rcases List.eq_nil_or_concat ((pySplit question).take 8) with hnil | ⟨l2, w0, hsplit⟩
      · rw [hnil] at hlen8
        simp at hlen8
      · rw [List.concat_eq_append] at hsplit
        rw [hsplit]
        rw [show joinSpace (l2 ++ [w0]) ++ ['?'] = joinSpace (l2 ++ [w0 ++ ['?']]) from
          (joinWith_append_one [' '] ['?'] l2 w0).symm]
        have hprops2 : ∀ w ∈ l2 ++ [w0 ++ ['?']], w ≠ [] ∧ ∀ c ∈ w, pyIsSpace c = false := by
          intro w hw
          rcases List.mem_append.mp hw with hw2 | hw2
          · exact hprops w (by rw [hsplit]; exact List.mem_append_left _ hw2)
          · rw [List.mem_singleton] at hw2
            subst hw2
            have hw0 := hprops w0 (by rw [hsplit]; exact List.mem_append_right _ (by simp))
            refine ⟨by simp, ?_⟩
            intro c hc
            rcases List.mem_append.mp hc with hc2 | hc2
            · exact hw0.2 c hc2
            · rw [List.mem_singleton] at hc2
              subst hc2
              decide
        rw [pySplit_joinSpace hprops2]
        have : l2.length + 1 = 8 := by
          have := hlen8
          rw [hsplit] at this
          simpa using this
        simp [this]
  · intro h8
    simp only [JC.enforce_word_count]
    rw [if_neg (by omega)]

/-- C9 witness: a ten-word question is truncated to its first eight words
with `?` appended; evaluated at a concrete input through the theorem. -/
theorem C9_witness :
    8 < (pySplit "a b c d e f g h i j".toList).length ∧
      (JC.enforce_word_count "a b c d e f g h i j".toList 4 8 =
        joinSpace ((pySplit "a b c d e f g h i j".toList).take 8) ++
          (if (joinSpace ((pySplit "a b c d e f g h i j".toList).take 8)).getLast? = some '?'
           then [] else ['?']) ∧
      (pySplit (JC.enforce_word_count "a b c d e f g h i j".toList 4 8)).length = 8) :=
  ⟨by decide, (C9_enforce_word_count_spec "a b c d e f g h i j".toList).1 (by decide)⟩

/-- C10: the language assignment of `process_single_query` is total and
deterministic: the language is `ne` exactly when the target text contains at
least one character of the configured Nepali Unicode ranges, and `en` in
every other case; no third value is possible. -/
theorem C10_language_assignment_total :
    ∀ target_text : List Char,
      (JC.detect_lang target_text = "ne".toList ↔
        ∃ c ∈ target_text, JC.isNepaliChar c = true) ∧
      (JC.detect_lang target_text = "en".toList ↔
        ¬ ∃ c ∈ target_text, JC.isNepaliChar c = true) ∧
      (JC.detect_lang target_text = "ne".toList ∨
        JC.detect_lang target_text = "en".toList) := by
  intro t
  simp only [JC.detect_lang]
  by_cases h : t.any JC.isNepaliChar = true
  · rw [if_pos h]
    rw [List.any_eq_true] at h
    exact ⟨⟨fun _ => h, fun _ => rfl⟩,
      ⟨fun hne => absurd hne (by decide), fun hcontra => absurd h hcontra⟩,
      Or.inl rfl⟩
  · rw [if_neg h]
    rw [List.any_eq_true] at h
    exact ⟨⟨fun hne => absurd hne (by decide), fun hcontra => absurd hcontra h⟩,
      ⟨fun _ => h, fun _ => rfl⟩, Or.inr rfl⟩

/-! ### Claim C4: batch-scoped deduplication -/

/-- The `seen`-set loop: a key already in `seen` never appears in the output;
a key not in `seen` that occurs in the input appears exactly once. -/
theorem dedupSeen_countP (k : List Char × List Char × List Char) :
    ∀ (l : List QCA) (seen : List (List Char × List Char × List Char)),
      (k ∈ seen →
        (JC.dedupSeen l seen).countP (fun x => decide (JC.qcaKey x = k)) = 0) ∧
      (k ∉ seen → (∃ x ∈ l, JC.qcaKey x = k) →
        (JC.dedupSeen l seen).countP (fun x => decide (JC.qcaKey x = k)) = 1) := by
  intro l
  induction l with
  | nil =>
    intro seen
    refine ⟨fun _ => rfl, fun _ hex => ?_⟩
    obtain ⟨x, hx, _⟩ := hex
    exact absurd hx (by simp)
  | cons x xs ih =>
    intro seen
    constructor
    · intro hk
      simp only [JC.dedupSeen]
      split
      · exact (ih seen).1 hk
      · rename_i hxs
        rw [List.countP_cons]
        have hne : JC.qcaKey x ≠ k := fun he => hxs (he ▸ hk)
        rw [(ih (JC.qcaKey x :: seen)).1 (List.mem_cons_of_mem _ hk)]
        simp [hne]
    · intro hk hex
      simp only [JC.dedupSeen]
      split
      · rename_i hxs
        have hne : JC.qcaKey x ≠ k := fun he => hk (he ▸ hxs)
        obtain ⟨y, hy, hyk⟩ := hex
        rcases List.mem_cons.mp hy with rfl | hy2
        · exact absurd hyk hne
        · exact (ih seen).2 hk ⟨y, hy2, hyk⟩
      · rename_i hxs
        rw [List.countP_cons]
        by_cases hxk : JC.qcaKey x = k
        · rw [(ih (JC.qcaKey x :: seen)).1 (by rw [hxk]; exact List.mem_cons_self _ _)]
          simp [hxk]
        · obtain ⟨y, hy, hyk⟩ := hex
          rcases List.mem_cons.mp hy with rfl | hy2
          · exact absurd hyk hxk
          · rw [(ih (JC.qcaKey x :: seen)).2
              (by
                intro hmem
                rcases List.mem_cons.mp hmem with he | he
                · exact hxk he.symm
                · exact hk he)
              ⟨y, hy2, hyk⟩]
            simp [hxk]

/-- C4: if the gathered results of a batch contain two or more records with
the same trimmed (question, context, answer) triple, `process_batch` writes
exactly one record with that triple. -/
theorem C4_process_batch_dedup :
    ∀ (batch_results : List (List QCA)) (k : List Char × List Char × List Char),
      2 ≤ (JC.gatherResults batch_results).countP (fun x => decide (JC.qcaKey x = k)) →
      (JC.process_batch batch_results).countP (fun x => decide (JC.qcaKey x = k)) = 1 := by
  intro br k h2
  have hpos : 0 < (JC.gatherResults br).countP (fun x => decide (JC.qcaKey x = k)) := by omega
  obtain ⟨x, hx, hxk⟩ := List.countP_pos_iff.mp hpos
  exact (dedupSeen_countP k (JC.gatherResults br) []).2 (by simp)
    ⟨x, hx, of_decide_eq_true hxk⟩

/-- C4 witness: two identical records in one batch produce exactly one output
record, through the theorem at a concrete batch. -/
theorem C4_witness :
    2 ≤ (JC.gatherResults [[⟨"q?".toList, "c".toList, "a".toList⟩],
          [⟨"q?".toList, "c".toList, "a".toList⟩]]).countP
        (fun x => decide (JC.qcaKey x = ("q?".toList, "c".toList, "a".toList))) ∧
      (JC.process_batch [[⟨"q?".toList, "c".toList, "a".toList⟩],
          [⟨"q?".toList, "c".toList, "a".toList⟩]]).countP
        (fun x => decide (JC.qcaKey x = ("q?".toList, "c".toList, "a".toList))) = 1 :=
  ⟨by decide, C4_process_batch_dedup _ _ (by decide)⟩

/-! ### Claim C2: the segmenter -/

/-- Invariant proof for the `while` loop of `split_text_into_segments`, at the
word level. -/
theorem segLoop_spec {α : Type} (words : List α) (maxW minW : Nat)
    (hminmax : minW ≤ maxW) (hmin : 1 ≤ minW) (htot : maxW < words.length) :
    ∀ (fuel i : Nat) (segs : List (List α)),
      i < words.length →
      words.length - i ≤ fuel →
      (∀ s ∈ segs, s.length = maxW) →
      segs.flatten = words.take i →
      (segs = [] → i = 0) →
      (JC.segLoop words maxW minW fuel i segs).flatten = words ∧
      (JC.segLoop words maxW minW fuel i segs) ≠ [] ∧
      (∀ s ∈ (JC.segLoop words maxW minW fuel i segs).dropLast, s.length = maxW) ∧
      (∀ s, (JC.segLoop words maxW minW fuel i segs).getLast? = some s →
        minW ≤ s.length ∧ s.length ≤ maxW + (minW - 1)) := by
  intro fuel
  induction fuel with
  | zero =>
    intro i segs hi hfuel
    omega
  | succ f ih =>
    intro i segs hi hfuel hsegs hflat hseg0
    simp only [JC.segLoop]
    rw [if_pos hi]
    by_cases hcase : i + maxW < words.length
    · rw [if_pos hcase]
      refine ih (i + maxW) (segs ++ [(words.drop i).take maxW]) hcase (by omega) ?_ ?_ ?_
      · intro s hs
        rcases List.mem_append.mp hs with hs2 | hs2
        · exact hsegs s hs2
        · rw [List.mem_singleton] at hs2
          subst hs2
          rw [List.length_take, List.length_drop]
          omega
      · rw [List.flatten_append, hflat]
        simp only [List.flatten_cons, List.flatten_nil, List.append_nil]
        exact (List.take_add words i maxW).symm
      · intro habs
        exact absurd habs (by simp)
    · rw [if_neg hcase]
      have hwlen : ((words.drop i).take maxW).length = words.length - i := by
        rw [List.length_take, List.length_drop]
        omega
      have hwfull : (words.drop i).take maxW = words.drop i := by
        apply List.take_of_length_le
        rw [List.length_drop]
        omega
      by_cases hmerge : (¬ segs.isEmpty) ∧ ((words.drop i).take maxW).length < minW
      · rw [if_pos hmerge]
        have hsegsne : segs ≠ [] := by
          intro habs
          apply hmerge.1
          rw [habs]
          rfl
        rcases List.eq_nil_or_concat segs with habs | ⟨l2, slast, hsplit⟩
        · exact absurd habs hsegsne
        rw [List.concat_eq_append] at hsplit
        subst hsplit
        have hmerge_eq : JC.mergeLast (l2 ++ [slast]) ((words.drop i).take maxW) =
            l2 ++ [slast ++ (words.drop i).take maxW] := by
          simp only [JC.mergeLast]
          rw [List.dropLast_concat]
          congr 1
          simp [List.getLastD_concat]
        rw [hmerge_eq]
        have hslast : slast.length = maxW := hsegs slast (by simp)
        refine ⟨?_, by simp, ?_, ?_⟩
        · rw [List.flatten_append]
          simp only [List.flatten_cons, List.flatten_nil, List.append_nil]
          rw [← List.append_assoc]
          have : l2.flatten ++ slast = words.take i := by
            have := hflat
            rw [List.flatten_append] at this
            simpa using this
          rw [this, hwfull, List.take_append_drop]
        · rw [List.dropLast_concat]
          intro s hs
          exact hsegs s (List.mem_append_left _ hs)
        · intro s hs
          rw [List.getLast?_concat] at hs
          injection hs with hs
          subst hs
          rw [List.length_append, hslast]
          have h1 : 1 ≤ ((words.drop i).take maxW).length := by
            rw [hwlen]; omega
          have h2 := hmerge.2
          omega
      · rw [if_neg hmerge]
        refine ⟨?_, by simp, ?_, ?_⟩
        · rw [List.flatten_append]
          simp only [List.flatten_cons, List.flatten_nil, List.append_nil]
          rw [hflat, hwfull, List.take_append_drop]
        · rw [List.dropLast_concat]
          exact hsegs
        · intro s hs
          rw [List.getLast?_concat] at hs
          injection hs with hs
          subst hs
          have hle : ((words.drop i).take maxW).length ≤ maxW := by
            rw [List.length_take]
            omega
          by_cases hempty : segs.isEmpty
          · have h0 : i = 0 := hseg0 (List.isEmpty_iff.mp hempty)
            subst h0
            rw [hwlen]
            omega
          · have : ¬ ((words.drop i).take maxW).length < minW := by
              intro habs
              exact hmerge ⟨by simpa using hempty, habs⟩
            omega

/-- C2 (amended with `min_words ≤ max_words`): if the word count of the text
is at most `max_words`, `split_text_into_segments` returns the single segment
`[text]`; otherwise the segments' word counts sum to the text's word count,
every segment except possibly the last has exactly `max_words` words, and the
last segment has at least `min_words` and at most
`max_words + (min_words - 1)` words. -/
theorem C2_segmenter_spec :
    ∀ (text : List Char) (max_words min_words : Nat),
      1 ≤ min_words → min_words ≤ max_words →
      (((pySplit text).length ≤ max_words →
          JC.split_text_into_segments text max_words min_words = [text]) ∧
        (max_words < (pySplit text).length →
          (((JC.split_text_into_segments text max_words min_words).map
              (fun s => (pySplit s).length)).sum = (pySplit text).length ∧
            (∀ s ∈ (JC.split_text_into_segments text max_words min_words).dropLast,
              (pySplit s).length = max_words) ∧
            ∀ s, (JC.split_text_into_segments text max_words min_words).getLast? = some s →
              min_words ≤ (pySplit s).length ∧
              (pySplit s).length ≤ max_words + (min_words - 1)))) := by
  intro text maxW minW hmin hminmax
  constructor
  · intro hle
    simp only [JC.split_text_into_segments]
    rw [if_pos hle]
  · intro hgt
    have hwords : ∀ w ∈ pySplit text, w ≠ [] ∧ ∀ c ∈ w, pyIsSpace c = false :=
      fun w hw => mem_splitRuns w hw
    have hR := segLoop_spec (pySplit text) maxW minW hminmax hmin hgt
      (pySplit text).length 0 [] (by omega) (by omega) (by simp) (by simp) (fun _ => rfl)
    obtain ⟨hflat, hne, hdrop, hlast⟩ := hR
    have hchunk : ∀ s ∈ JC.segLoop (pySplit text) maxW minW (pySplit text).length 0 [],
        (∀ w ∈ s, w ≠ [] ∧ ∀ c ∈ w, pyIsSpace c = false) := by
      intro s hs w hw
      exact hwords w (hflat ▸ List.mem_flatten.mpr ⟨s, hs, hw⟩)
    have hcount : ∀ s ∈ JC.segLoop (pySplit text) maxW minW (pySplit text).length 0 [],
        (pySplit (joinSpace s)).length = s.length := by
      intro s hs
      rw [pySplit_joinSpace (hchunk s hs)]
    have hunfold : JC.split_text_into_segments text maxW minW =
        (JC.segLoop (pySplit text) maxW minW (pySplit text).length 0 []).map joinSpace := by
      simp only [JC.split_text_into_segments]
      rw [if_neg (by omega)]
    rw [hunfold]
    refine ⟨?_, ?_, ?_⟩
    · rw [List.map_map]
      have : ((JC.segLoop (pySplit text) maxW minW (pySplit text).length 0 []).map
          ((fun s => (pySplit s).length) ∘ joinSpace)) =
          (JC.segLoop (pySplit text) maxW minW (pySplit text).length 0 []).map List.length := by
        apply List.map_congr_left
        intro s hs
        exact hcount s hs
      rw [this, ← List.length_flatten, hflat]
    · rw [← List.map_dropLast]
      intro s hs
      obtain ⟨c, hc, rfl⟩ := List.mem_map.mp hs
      rw [hcount c (List.dropLast_subset _ hc)]
      exact hdrop c hc
    · intro s hs
      rw [List.getLast?_map] at hs
      cases hlq : (JC.segLoop (pySplit text) maxW minW (pySplit text).length 0 []).getLast? with
      | none => rw [hlq] at hs; simp at hs
      | some c =>
        rw [hlq] at hs
        simp only [Option.map_some'] at hs
        injection hs with hs
        subst hs
        have hcmem : c ∈ JC.segLoop (pySplit text) maxW minW (pySplit text).length 0 [] :=
          List.mem_of_mem_getLast? hlq
        rw [hcount c hcmem]
        exact hlast c hlq

/-- C2 counterexample: with the positive thresholds `max_words = 2`,
`min_words = 4` the text `"a b c d e"` (five words) splits into
`["a b", "c d e"]`, whose last segment has only three words — fewer than
`min_words` — refuting the claim as stated for arbitrary positive
thresholds (it requires `min_words ≤ max_words`). -/
theorem C2_counterexample :
    JC.split_text_into_segments "a b c d e".toList 2 4 =
        ["a b".toList, "c d e".toList] ∧
      (JC.split_text_into_segments "a b c d e".toList 2 4).getLast? =
        some "c d e".toList ∧
      (pySplit "c d e".toList).length < 4 :=
  ⟨by decide, by decide, by decide⟩

/-- C2 witness: the amended theorem applied at the text `"a b c d e"` with
band (2, 2): three segments of word counts 2, 2, 1 merge their tail. -/
theorem C2_witness :
    (1 ≤ 2 ∧ 2 ≤ 2 ∧ 2 < (pySplit "a b c d e".toList).length) ∧
      (((JC.split_text_into_segments "a b c d e".toList 2 2).map
          (fun s => (pySplit s).length)).sum = (pySplit "a b c d e".toList).length ∧
        (∀ s ∈ (JC.split_text_into_segments "a b c d e".toList 2 2).dropLast,
          (pySplit s).length = 2) ∧
        ∀ s, (JC.split_text_into_segments "a b c d e".toList 2 2).getLast? = some s →
          2 ≤ (pySplit s).length ∧ (pySplit s).length ≤ 2 + (2 - 1)) :=
  ⟨⟨by decide, by decide, by decide⟩,
    (C2_segmenter_spec "a b c d e".toList 2 2 (by decide) (by decide)).2 (by decide)⟩

/-! ### Claim C3: output-file rotation in the main loop -/

/-- At input exhaustion `main` writes at most one final (partial-batch) event,
on the current file, without a size check. -/
theorem main_loop_nil_cases (col : JC.Collab) (jl : QCA → Nat)
    (file size : Nat) (batch : List JC.Query) :
    JC.main_loop col jl file size batch [] = [] ∨
    ∃ ev : JC.WriteEvent, JC.main_loop col jl file size batch [] = [ev] ∧
      ev.rotated = false ∧ ev.fileIdx = file := by
  simp only [JC.main_loop]
  split
  · exact Or.inl rfl
  · exact Or.inr ⟨_, rfl, rfl, rfl⟩

/-- One step of the main loop: either the batch is still filling, or a write
event on the current file is emitted and the loop continues with an empty
batch — on file `file + 1` with size 0 exactly when the size check fired. -/
theorem main_loop_cons_cases (col : JC.Collab) (jl : QCA → Nat)
    (file size : Nat) (batch : List JC.Query) (q : JC.Query) (qs : List JC.Query) :
    (JC.main_loop col jl file size batch (q :: qs) =
        JC.main_loop col jl file size (batch ++ [q]) qs) ∨
    ∃ (ev : JC.WriteEvent) (file2 size2 : Nat),
      JC.main_loop col jl file size batch (q :: qs) =
        ev :: JC.main_loop col jl file2 size2 [] qs ∧
      ev.fileIdx = file ∧
      (ev.rotated = true → file2 = file + 1) ∧
      (ev.rotated = false → file2 = file) := by
  simp only [JC.main_loop]
  split
  · split
    · exact Or.inr ⟨_, file + 1, 0, rfl, rfl, fun _ => rfl, fun h => Bool.noConfusion h⟩
    · exact Or.inr ⟨_, file, _, rfl, rfl, fun h => Bool.noConfusion h, fun _ => rfl⟩
  · exact Or.inl rfl

/-- Every event of the loop is written on the current file or a later one. -/
theorem main_loop_fileIdx_ge (col : JC.Collab) (jl : QCA → Nat) :
    ∀ (qs : List JC.Query) (file size : Nat) (batch : List JC.Query),
      ∀ ev ∈ JC.main_loop col jl file size batch qs, file ≤ ev.fileIdx := by
  intro qs
  induction qs with
  | nil =>
    intro file size batch ev hev
    rcases main_loop_nil_cases col jl file size batch with hE | ⟨ev2, hE, _, hf⟩
    · rw [hE] at hev; simp at hev
    · rw [hE, List.mem_singleton] at hev
      subst hev
      omega
  | cons q qs ih =>
    intro file size batch ev hev
    rcases main_loop_cons_cases col jl file size batch q qs with hE | ⟨ev2, f2, s2, hE, hf, h1, h0⟩
    · rw [hE] at hev
      exact ih file size (batch ++ [q]) ev hev
    · rw [hE] at hev
      rcases List.mem_cons.mp hev with rfl | hev2
      · omega
      · have := ih f2 s2 [] ev hev2
        cases hrot : ev2.rotated with
        | true => have := h1 hrot; omega
        | false => have := h0 hrot; omega

/-- The first event written by the loop lands on the current file. -/
theorem main_loop_head_fileIdx (col : JC.Collab) (jl : QCA → Nat) :
    ∀ (qs : List JC.Query) (file size : Nat) (batch : List JC.Query) (ev : JC.WriteEvent),
      (JC.main_loop col jl file size batch qs).head? = some ev → ev.fileIdx = file := by
  intro qs
  induction qs with
  | nil =>
    intro file size batch ev hev
    rcases main_loop_nil_cases col jl file size batch with hE | ⟨ev2, hE, _, hf⟩
    · rw [hE] at hev; simp at hev
    · rw [hE] at hev
      simp only [List.head?_cons, Option.some.injEq] at hev
      subst hev
      exact hf
  | cons q qs ih =>
    intro file size batch ev hev
    rcases main_loop_cons_cases col jl file size batch q qs with hE | ⟨ev2, f2, s2, hE, hf, _, _⟩
    · rw [hE] at hev
      exact ih file size (batch ++ [q]) ev hev
    · rw [hE] at hev
      simp only [List.head?_cons, Option.some.injEq] at hev
      subst hev
      exact hf

/-- Rotation invariant of the main loop, for every starting state. -/
theorem main_loop_rotation (col : JC.Collab) (jl : QCA → Nat) :
    ∀ (qs : List JC.Query) (file size : Nat) (batch : List JC.Query)
      (i j : Nat) (evi evj : JC.WriteEvent),
      (JC.main_loop col jl file size batch qs)[i]? = some evi →
      (JC.main_loop col jl file size batch qs)[j]? = some evj →
      evi.rotated = true →
      (i < j → evi.fileIdx < evj.fileIdx) ∧
      (∀ evn : JC.WriteEvent,
        (JC.main_loop col jl file size batch qs)[i + 1]? = some evn →
        evn.fileIdx = evi.fileIdx + 1) := by
  intro qs
  induction qs with
  | nil =>
    intro file size batch i j evi evj hi hj hrot
    rcases main_loop_nil_cases col jl file size batch with hE | ⟨ev, hE, hevrot, _⟩
    · rw [hE] at hi; simp at hi
    · rw [hE] at hi
      cases i with
      | zero =>
        rw [List.getElem?_cons_zero] at hi
        injection hi with hi
        subst hi
        rw [hevrot] at hrot
        exact Bool.noConfusion hrot
      | succ i2 =>
        rw [List.getElem?_cons_succ] at hi
        simp at hi
  | cons q qs ih =>
    intro file size batch i j evi evj hi hj hrot
    rcases main_loop_cons_cases col jl file size batch q qs with hE | ⟨ev, f2, s2, hE, hf, h1, _⟩
    · rw [hE] at hi hj ⊢
      exact ih file size (batch ++ [q]) i j evi evj hi hj hrot
    · rw [hE] at hi hj ⊢
      cases i with
      | zero =>
        rw [List.getElem?_cons_zero] at hi
        injection hi with hi
        subst hi
        have hf2 : f2 = ev.fileIdx + 1 := by rw [hf]; exact h1 hrot
        constructor
        · intro hij
          cases j with
          | zero => omega
          | succ j2 =>
            rw [List.getElem?_cons_succ] at hj
            have hmem := List.getElem?_mem hj
            have := main_loop_fileIdx_ge col jl qs f2 s2 [] evj hmem
            omega
        · intro evn hn
          rw [List.getElem?_cons_succ] at hn
          have hn2 : (JC.main_loop col jl f2 s2 [] qs).head? = some evn := by
            cases hE2 : JC.main_loop col jl f2 s2 [] qs with
            | nil => rw [hE2] at hn; simp at hn
            | cons e es =>
              rw [hE2] at hn
              rw [List.getElem?_cons_zero] at hn
              rw [List.head?_cons]
              exact hn
          have := main_loop_head_fileIdx col jl qs f2 s2 [] evn hn2
          omega
      | succ i2 =>
        rw [List.getElem?_cons_succ] at hi
        constructor
        · intro hij
          cases j with
          | zero => omega
          | succ j2 =>
            rw [List.getElem?_cons_succ] at hj
            exact (ih f2 s2 [] i2 j2 evi evj hi hj hrot).1 (by omega)
        · intro evn hn
          rw [List.getElem?_cons_succ] at hn
          exact (ih f2 s2 [] i2 i2 evi evi hi hi hrot).2 evn hn

/-- C3: whenever the post-batch size check fires (the active file's byte size
meets or exceeds `MAX_FILE_SIZE`), the next write — if any — lands on the
next sequentially numbered file, and no later write ever lands on the
previously active file again. -/
theorem C3_rotation_spec :
    ∀ (col : JC.Collab) (jsonLen : QCA → Nat) (qs : List JC.Query)
      (i j : Nat) (evi evj : JC.WriteEvent),
      (JC.main_loop col jsonLen 1 0 [] qs)[i]? = some evi →
      (JC.main_loop col jsonLen 1 0 [] qs)[j]? = some evj →
      evi.rotated = true →
      (i < j → evi.fileIdx < evj.fileIdx) ∧
      (∀ evn : JC.WriteEvent,
        (JC.main_loop col jsonLen 1 0 [] qs)[i + 1]? = some evn →
        evn.fileIdx = evi.fileIdx + 1) := by
  intro col jsonLen qs
  exact main_loop_rotation col jsonLen qs 1 0 []

set_option maxRecDepth 8000 in
/-- C3 witness: on a twenty-query run whose first full batch fills the active
file up to the ceiling, the rotation theorem applies concretely: the first
write fires the size check on file 1 and the second write lands on file 2. -/
theorem C3_witness :
    ((JC.main_loop ceCollab (fun _ => JC.MAX_FILE_SIZE) 1 0 [] ceQueries)[0]? =
        some ⟨1, [⟨"What is the relationship between ab, cd?".toList,
          "ab cd".toList, "ab cd".toList⟩], 52428800, true⟩ ∧
      (JC.main_loop ceCollab (fun _ => JC.MAX_FILE_SIZE) 1 0 [] ceQueries)[1]? =
        some ⟨2, [], 0, false⟩ ∧
      (⟨1, [⟨"What is the relationship between ab, cd?".toList,
          "ab cd".toList, "ab cd".toList⟩], 52428800, true⟩ : JC.WriteEvent).rotated = true) ∧
    (⟨1, [⟨"What is the relationship between ab, cd?".toList,
        "ab cd".toList, "ab cd".toList⟩], 52428800, true⟩ : JC.WriteEvent).fileIdx <
      (⟨2, [], 0, false⟩ : JC.WriteEvent).fileIdx :=
  ⟨⟨by decide, by decide, by decide⟩,
    (C3_rotation_spec ceCollab (fun _ => JC.MAX_FILE_SIZE) ceQueries 0 1
      ⟨1, [⟨"What is the relationship between ab, cd?".toList,
        "ab cd".toList, "ab cd".toList⟩], 52428800, true⟩
      ⟨2, [], 0, false⟩ (by decide) (by decide) (by decide)).1 (by decide)⟩

/-! ### Claims C5 and C6: properties of the normalizers -/

namespace Py

theorem matchLit_sublist : ∀ {p l r : List Char}, matchLit p l = some r → r.Sublist l := by
  intro p
  induction p with
  | nil =>
    intro l r h
    simp only [matchLit, Option.some.injEq] at h
    subst h
    exact List.Sublist.refl _
  | cons x ps ih =>
    intro l r h
    cases l with
    | nil => exact absurd h (by simp [matchLit])
    | cons c cs =>
      simp only [matchLit] at h
      split at h
      · exact (ih h).trans (List.sublist_cons_self c cs)
      · exact absurd h (by simp)

theorem matchPlus_sublist {p : Char → Bool} {l r : List Char}
    (h : matchPlus p l = some r) : r.Sublist l := by
  cases l with
  | nil => exact absurd h (by simp [matchPlus])
  | cons c cs =>
    simp only [matchPlus] at h
    split at h
    · injection h with h
      subst h
      exact (List.dropWhile_sublist _).trans (List.sublist_cons_self c cs)
    · exact absurd h (by simp)

theorem matchLit_head {x : Char} {ps l r : List Char}
    (h : matchLit (x :: ps) l = some r) : ∃ t, l = x :: t := by
  cases l with
  | nil => exact absurd h (by simp [matchLit])
  | cons c cs =>
    simp only [matchLit] at h
    split at h
    · rename_i hc
      exact ⟨cs, by rw [hc]⟩
    · exact absurd h (by simp)

theorem containsSub_mem {p l : List Char} (h : containsSub p l = true) :
    ∀ c ∈ p, c ∈ l := by
  induction l with
  | nil =>
    intro c hc
    simp only [containsSub, List.isEmpty_iff] at h
    subst h
    simp at hc
  | cons a as ih =>
    intro c hc
    simp only [containsSub, Bool.or_eq_true] at h
    rcases h with h | h
    · have hpre := List.isPrefixOf_iff_prefix.mp h
      exact hpre.sublist.subset hc
    · exact List.mem_cons_of_mem a (ih h c hc)

end Py

namespace DC

theorem urlTail_sublist {l r : List Char} (h : urlTail l = some r) : r.Sublist l := by
  simp only [urlTail, andThen] at h
  cases hm : matchLit "://".toList l with
  | none => rw [hm] at h; exact absurd h (by simp)
  | some l2 =>
    rw [hm] at h
    exact (matchPlus_sublist h).trans (matchLit_sublist hm)

theorem urlStep_sublist {l r : List Char} (h : urlStep l = some r) : r.Sublist l := by
  simp only [urlStep, andThen] at h
  split at h
  · exact absurd h (by simp)
  · rename_i l4 hm
    have hl4 : l4.Sublist l := matchLit_sublist hm
    split at h
    · rename_i l5 hs
      have hl5 : l5.Sublist l := (matchLit_sublist hs).trans hl4
      split at h
      · rename_i r2 ht
        injection h with h
        subst h
        exact (urlTail_sublist ht).trans hl5
      · exact (urlTail_sublist h).trans hl4
    · exact (urlTail_sublist h).trans hl4

theorem mem_remove_urls {t : List Char} {c : Char} (h : c ∈ remove_urls t) : c ∈ t :=
  (scanRemove_sublist (fun _ _ hs => urlStep_sublist hs) _ t).subset h

/-- Every character of DataCleaner's `clean_text` output is a word character
or a blank. -/
theorem clean_text_chars {t : List Char} :
    ∀ c ∈ clean_text t, pyIsWordChar c = true ∨ c = ' ' := by
  intro c hc
  have h1 : c ∈ (collapseWs (remove_urls t)).filter
      (fun c => pyIsWordChar c || pyIsSpace c) := mem_pyStrip hc
  rw [List.mem_filter] at h1
  rcases mem_collapseGo _ _ h1.1 with ⟨_, hns⟩ | hsp
  · rcases Bool.or_eq_true .. |>.mp h1.2 with hw | hs
    · exact Or.inl hw
    · rw [hns] at hs
      exact absurd hs (by simp)
  · exact Or.inr hsp

theorem urlTail_colon {l r : List Char} (h : urlTail l = some r) : ':' ∈ l := by
  simp only [urlTail, andThen] at h
  cases hm : matchLit "://".toList l with
  | none => rw [hm] at h; exact absurd h (by simp)
  | some l2 =>
    obtain ⟨t, ht⟩ := matchLit_head hm
    rw [ht]
    simp

theorem urlStep_colon {l r : List Char} (h : urlStep l = some r) : ':' ∈ l := by
  simp only [urlStep, andThen] at h
  split at h
  · exact absurd h (by simp)
  · rename_i l4 hm
    have hl4 : l4.Sublist l := matchLit_sublist hm
    split at h
    · rename_i l5 hs
      have hl5 : l5.Sublist l := (matchLit_sublist hs).trans hl4
      split at h
      · rename_i r2 ht
        exact hl5.subset (urlTail_colon ht)
      · exact hl4.subset (urlTail_colon h)
    · exact hl4.subset (urlTail_colon h)

theorem remove_urls_eq_self {y : List Char}
    (hcc : ∀ c ∈ y, pyIsWordChar c = true ∨ c = ' ') : remove_urls y = y := by
  apply scanRemove_eq_self
  intro t ht
  cases hstep : urlStep t with
  | none => rfl
  | some r =>
    have hcol : (':' : Char) ∈ y := ht.subset (urlStep_colon hstep)
    rcases hcc ':' hcol with hw | hb
    · exact absurd hw (by decide)
    · exact absurd hb (by decide)

/-- On an input that is already in clean form — word characters and blanks
only, no leading or trailing whitespace — `clean_text` only collapses the
whitespace runs. -/
theorem clean_text_normalized {y : List Char}
    (hcc : ∀ c ∈ y, pyIsWordChar c = true ∨ c = ' ')
    (hh : ∀ c t, y = c :: t → pyIsSpace c = false)
    (hl : ∀ c, y.getLast? = some c → pyIsSpace c = false) :
    clean_text y = collapseWs y := by
  have h1 : remove_urls y = y := remove_urls_eq_self hcc
  have h2 : (collapseWs y).filter (fun c => pyIsWordChar c || pyIsSpace c) = collapseWs y := by
    rw [List.filter_eq_self]
    intro c hc
    rcases mem_collapseGo _ _ hc with ⟨hcy, _⟩ | hsp
    · rcases hcc c hcy with hw | hb
      · simp [hw]
      · subst hb
        simp [pyIsSpace]
    · subst hsp
      simp [pyIsSpace]
  have h3 : pyStrip (collapseWs y) = collapseWs y := by
    apply pyStrip_eq_self
    · intro c t hct
      cases y with
      | nil => simp [collapseWs, collapseGo] at hct
      | cons a as =>
        have ha : pyIsSpace a = false := hh a as rfl
        rw [collapseWs, collapseGo_cons_not false ha] at hct
        injection hct with hc _
        exact hc ▸ ha
    · intro c hc
      cases hy : y.getLast? with
      | none =>
        rw [List.getLast?_eq_none_iff] at hy
        subst hy
        simp [collapseWs, collapseGo] at hc
      | some d =>
        have hd : pyIsSpace d = false := hl d hy
        have := collapseGo_getLast y false hy hd
        rw [collapseWs] at hc
        rw [this] at hc
        injection hc with hc
        exact hc ▸ hd
  rw [clean_text, h1, h2, h3]

theorem clean_text_head_not_space {s : List Char} :
    ∀ c t, clean_text s = c :: t → pyIsSpace c = false := by
  intro c t h
  exact pyStrip_head_not_space h

theorem clean_text_getLast_not_space {s : List Char} :
    ∀ c, (clean_text s).getLast? = some c → pyIsSpace c = false := by
  intro c h
  exact pyStrip_getLast h

/-- Applying `clean_text` to its own output only collapses whitespace. -/
theorem clean_text_twice (s : List Char) :
    clean_text (clean_text s) = collapseWs (clean_text s) :=
  clean_text_normalized clean_text_chars clean_text_head_not_space clean_text_getLast_not_space

/-- A third application is the identity on the twice-cleaned text. -/
theorem clean_text_of_collapse (s : List Char) :
    clean_text (collapseWs (clean_text s)) = collapseWs (clean_text s) := by
  have hcc : ∀ c ∈ collapseWs (clean_text s), pyIsWordChar c = true ∨ c = ' ' := by
    intro c hc
    rcases mem_collapseGo _ _ hc with ⟨hcy, _⟩ | hsp
    · exact clean_text_chars c hcy
    · exact Or.inr hsp
  have hh : ∀ c t, collapseWs (clean_text s) = c :: t → pyIsSpace c = false := by
    intro c t hct
    cases hy : clean_text s with
    | nil => rw [hy] at hct; simp [collapseWs, collapseGo] at hct
    | cons a as =>
      have ha : pyIsSpace a = false := clean_text_head_not_space a as hy
      rw [hy, collapseWs, collapseGo_cons_not false ha] at hct
      injection hct with hc _
      exact hc ▸ ha
  have hl : ∀ c, (collapseWs (clean_text s)).getLast? = some c → pyIsSpace c = false := by
    intro c hc
    cases hy : (clean_text s).getLast? with
    | none =>
      rw [List.getLast?_eq_none_iff] at hy
      rw [hy] at hc
      simp [collapseWs, collapseGo] at hc
    | some d =>
      have hd : pyIsSpace d = false := clean_text_getLast_not_space d hy
      have := collapseGo_getLast (clean_text s) false hy hd
      rw [collapseWs] at hc
      rw [this] at hc
      injection hc with hc
      exact hc ▸ hd
  rw [clean_text_normalized hcc hh hl, collapseWs, collapseWs, collapseGo_idem]

end DC

/-- The output contains a control character. -/
def hasControlChar (l : List Char) : Bool := l.any (fun c => c.toNat < 32 ∨ c.toNat = 127)

/-- The output contains two immediately adjacent equal words. -/
def hasAdjacentDup : List (List Char) → Bool
  | [] => false
  | [_] => false
  | a :: b :: t => (a = b) || hasAdjacentDup (b :: t)

/-- C5 (amended): DataCleaner's `clean_text` output consists of word
characters and blanks only; in particular it contains no control characters
and no URL-shaped substring.  (The no-UI-phrase and no-duplicate-word clauses,
and all four clauses for JsonDataCleaner's `clean_text`, do not hold — see
the counterexample.) -/
theorem C5_normalizer_spec :
    ∀ text : List Char,
      (∀ c ∈ DC.clean_text text, pyIsWordChar c = true ∨ c = ' ') ∧
      hasControlChar (DC.clean_text text) = false ∧
      containsSub "http://".toList (DC.clean_text text) = false ∧
      containsSub "https://".toList (DC.clean_text text) = false := by
  intro text
  refine ⟨DC.clean_text_chars, ?_, ?_, ?_⟩
  · rw [hasControlChar, List.any_eq_false]
    intro c hc hctl
    have hval := of_decide_eq_true hctl
    rcases DC.clean_text_chars c hc with hw | hb
    · rw [pyIsWordChar] at hw
      rcases of_decide_eq_true hw with h | h | h | h
      · omega
      · omega
      · omega
      · subst h
        revert hval
        decide
    · subst hb
      revert hval
      decide
  · by_contra hsub
    have := Py.containsSub_mem (by simpa using hsub) ':' (by decide)
    rcases DC.clean_text_chars ':' this with hw | hb
    · exact absurd hw (by decide)
    · exact absurd hb (by decide)
  · by_contra hsub
    have := Py.containsSub_mem (by simpa using hsub) ':' (by decide)
    rcases DC.clean_text_chars ':' this with hw | hb
    · exact absurd hw (by decide)
    · exact absurd hb (by decide)

set_option maxRecDepth 8000 in
/-- C5 counterexample: each clause of the claim fails on the cited
normalizers.  JsonDataCleaner's `clean_text` preserves a doubled word and a
control character, and its phrase removal can even create a UI phrase
(`click h[error]ere` → `click here`) or a URL (`ht[sign up]tp://x` →
`http://x`); DataCleaner's `clean_text` preserves a doubled word and a UI
phrase. -/
theorem C5_counterexample :
    (JC.clean_text "the the".toList "en".toList = "the the".toList ∧
      hasAdjacentDup (pySplit (JC.clean_text "the the".toList "en".toList)) = true) ∧
    (JC.clean_text "a\x01b".toList "en".toList = "a\x01b".toList ∧
      hasControlChar (JC.clean_text "a\x01b".toList "en".toList) = true) ∧
    (JC.clean_text "click herrorere".toList "en".toList = "click here".toList ∧
      containsSub "click here".toList
        (JC.clean_text "click herrorere".toList "en".toList) = true) ∧
    (JC.clean_text "htsign uptp://x".toList "en".toList = "http://x".toList ∧
      containsSub "http://".toList
        (JC.clean_text "htsign uptp://x".toList "en".toList) = true) ∧
    (DC.clean_text "a a".toList = "a a".toList ∧
      hasAdjacentDup (pySplit (DC.clean_text "a a".toList)) = true) ∧
    (DC.clean_text "add to cart".toList = "add to cart".toList ∧
      containsSub "add to cart".toList (DC.clean_text "add to cart".toList) = true) :=
  ⟨⟨by decide, by decide⟩, ⟨by decide, by decide⟩, ⟨by decide, by decide⟩,
    ⟨by decide, by decide⟩, ⟨by decide, by decide⟩, ⟨by decide, by decide⟩⟩

/-- C6 (amended): neither normalizer is idempotent, but for DataCleaner's
`clean_text` a second application is: applying `clean_text` three times
equals applying it twice (removing punctuation can leave doubled blanks that
only the next pass collapses; after that pass the text is a fixed point). -/
theorem C6_normalize_twice_idempotent :
    ∀ s : List Char,
      DC.clean_text (DC.clean_text (DC.clean_text s)) =
        DC.clean_text (DC.clean_text s) := by
  intro s
  rw [DC.clean_text_twice s, DC.clean_text_of_collapse s]

set_option maxRecDepth 8000 in
/-- C6 counterexample: `normalize(normalize(x)) = normalize(x)` fails for
both normalizers.  DataCleaner: `"a ! b"` cleans to `"a  b"` (double blank),
which cleans again to `"a b"`.  JsonDataCleaner: `"click herrorere"` cleans
to `"click here"`, which the second pass deletes entirely. -/
theorem C6_counterexample :
    (DC.clean_text (DC.clean_text "a ! b".toList) ≠ DC.clean_text "a ! b".toList) ∧
    (JC.clean_text (JC.clean_text "click herrorere".toList "en".toList) "en".toList ≠
      JC.clean_text "click herrorere".toList "en".toList) :=
  ⟨by decide, by decide⟩

/-! ### Claim C1: properties of every emitted record -/

namespace Py

theorem mem_dropWhile_of_not {p : Char → Bool} {c : Char} :
    ∀ {l : List Char}, c ∈ l → p c = false → c ∈ l.dropWhile p := by
  intro l
  induction l with
  | nil => intro h; simp at h
  | cons a as ih =>
    intro h hc
    rw [List.dropWhile_cons]
    split
    · rename_i ha
      rcases List.mem_cons.mp h with rfl | h2
      · rw [hc] at ha
        exact absurd ha (by simp)
      · exact ih h2 hc
    · exact h

theorem mem_dropTrailing_of_not {c : Char} :
    ∀ {l : List Char}, c ∈ l → pyIsSpace c = false → c ∈ dropTrailing l := by
  intro l
  induction l with
  | nil => intro h; simp at h
  | cons a as ih =>
    intro h hc
    show c ∈ (if dropTrailing as = [] ∧ pyIsSpace a = true then [] else a :: dropTrailing as)
    split
    · rename_i hcond
      rcases List.mem_cons.mp h with rfl | h2
      · rw [hc] at hcond
        exact absurd hcond.2 (by simp)
      · have := ih h2 hc
        rw [hcond.1] at this
        simp at this
    · rcases List.mem_cons.mp h with rfl | h2
      · exact List.mem_cons_self ..
      · exact List.mem_cons_of_mem a (ih h2 hc)

theorem mem_pyStrip_of_not_space {c : Char} {l : List Char}
    (h : c ∈ l) (hc : pyIsSpace c = false) : c ∈ pyStrip l :=
  mem_dropTrailing_of_not (mem_dropWhile_of_not h hc) hc

end Py

namespace DC

theorem rrwGo_sublist : ∀ (fuel : Nat) (prev : Bool) (l : List Char),
    (rrwGo fuel prev l).Sublist l := by
  intro fuel
  induction fuel with
  | zero => intro prev l; exact List.Sublist.refl _
  | succ f ih =>
    intro prev l
    cases l with
    | nil => exact List.Sublist.refl _
    | cons c cs =>
      simp only [rrwGo]
      split
      · split
        · have hsplit : (c :: cs).takeWhile pyIsWordChar ++
              (c :: cs).dropWhile pyIsWordChar = c :: cs :=
            List.takeWhile_append_dropWhile ..
          have hsub1 : ((((c :: cs).dropWhile pyIsWordChar).dropWhile pyIsSpace).drop
              ((c :: cs).takeWhile pyIsWordChar).length).Sublist
              ((c :: cs).dropWhile pyIsWordChar) :=
            (List.drop_sublist _ _).trans (List.dropWhile_sublist _)
          have hs2 := List.Sublist.append
            (List.Sublist.refl ((c :: cs).takeWhile pyIsWordChar))
            ((ih true _).trans hsub1)
          rwa [hsplit] at hs2
        · exact (ih (pyIsWordChar c) cs).cons₂ c
      · exact (ih (pyIsWordChar c) cs).cons₂ c

theorem mem_remove_repeated_words {t : List Char} {c : Char}
    (h : c ∈ remove_repeated_words t) : c ∈ t :=
  (rrwGo_sublist _ _ _).subset h

theorem mem_remove_leading_numbers {t : List Char} {c : Char}
    (h : c ∈ remove_leading_numbers t) : c ∈ t := by
  cases t with
  | nil => simpa [remove_leading_numbers] using h
  | cons a as =>
    simp only [remove_leading_numbers] at h
    split at h
    · exact ((List.dropWhile_sublist _).trans (List.dropWhile_sublist _)).subset h
    · exact h

theorem mem_cleanChain {t : List Char} {c : Char} (h : c ∈ cleanChain t) :
    pyIsWordChar c = true ∨ c = ' ' := by
  have h1 := mem_remove_leading_numbers h
  have h2 := mem_remove_repeated_words h1
  rw [clean_special_characters] at h2
  exact clean_text_chars c (List.mem_filter.mp h2).1

theorem cleanChain_no_qmark {t : List Char} (h : ('?' : Char) ∈ cleanChain t) : False := by
  rcases mem_cleanChain h with hw | hb
  · exact absurd hw (by decide)
  · exact absurd hb (by decide)

theorem valid_question_mem {ci : List Char} (h : is_valid_question ci = true) :
    ('?' : Char) ∈ ci := by
  have hp := of_decide_eq_true h
  exact mem_pyStrip (List.mem_of_mem_getLast? hp)

theorem generate_context_ne_nil (pick : Nat) (t : List Char) :
    generate_context pick t ≠ [] := by
  have h5 : pick % 5 = 0 ∨ pick % 5 = 1 ∨ pick % 5 = 2 ∨ pick % 5 = 3 ∨ pick % 5 = 4 := by
    omega
  rcases h5 with h | h | h | h | h <;> simp [generate_context, h]

theorem truncate_context_ne_nil {c a : List Char} {θ : ℚ} (hc : c ≠ []) :
    truncate_context c a θ ≠ [] := by
  simp only [truncate_context]
  split
  · exact hc
  · rename_i hcw
    split
    · rename_i hcond
      apply joinSpace_ne_nil
      · have h3 : (pySplit c).take 3 ≠ [] := by
          intro habs
          have hlen := congrArg List.length habs
          rw [List.length_take] at hlen
          simp only [List.length_nil] at hlen
          have h6 := hcond.2
          omega
        intro habs
        rw [List.append_eq_nil] at habs
        exact h3 habs.1
      · intro w hw
        rcases List.mem_append.mp hw with hw2 | hw2
        · exact (mem_splitRuns w (List.take_subset _ _ hw2)).1
        · exact (mem_splitRuns w (List.drop_subset _ _ hw2)).1
    · exact hc

theorem process_branch2_props {pick : Nat} {ci ct : List Char} {ex : QCA}
    (h : process_branch2 pick ci ct = some ex) :
    ('?' : Char) ∈ ex.question ∧ ex.answer = ct ∧ ex.context ≠ [] := by
  simp only [process_branch2] at h
  split at h
  · split at h
    · split at h
      · split at h
        · injection h with h
          subst h
          refine ⟨?_, rfl, truncate_context_ne_nil (generate_context_ne_nil pick ct)⟩
          refine List.mem_append_right _ ?_
          decide
        · exact absurd h (by simp)
      · split at h
        · injection h with h
          subst h
          refine ⟨?_, rfl, truncate_context_ne_nil (generate_context_ne_nil pick ct)⟩
          refine List.mem_append_right _ ?_
          decide
        · exact absurd h (by simp)
    · split at h
      · rename_i hnv hv
        injection h with h
        subst h
        exact ⟨valid_question_mem hv, rfl,
          truncate_context_ne_nil (generate_context_ne_nil pick ct)⟩
      · exact absurd h (by simp)
  · exact absurd h (by simp)

theorem process_core_props {pick : Nat} {ci ct : List Char} {ex : QCA}
    (h : process_core pick ci ct = some ex) :
    ('?' : Char) ∈ ex.question ∧ ex.answer = ct ∧ pyStrip ct ≠ [] ∧ ex.context ≠ [] := by
  simp only [process_core] at h
  split at h
  · exact absurd h (by simp)
  · rename_i hstrip
    split at h
    · split at h
      · split at h
        · split at h
          · injection h with h
            subst h
            refine ⟨?_, rfl, hstrip, truncate_context_ne_nil (generate_context_ne_nil pick _)⟩
            refine List.mem_append_right _ ?_
            decide
          · obtain ⟨h1, h2, h3⟩ := process_branch2_props h
            exact ⟨h1, h2, hstrip, h3⟩
        · rename_i hv
          split at h
          · injection h with h
            subst h
            exact ⟨valid_question_mem (not_not.mp hv), rfl, hstrip,
              truncate_context_ne_nil (generate_context_ne_nil pick _)⟩
          · obtain ⟨h1, h2, h3⟩ := process_branch2_props h
            exact ⟨h1, h2, hstrip, h3⟩
      · split at h
        · split at h
          · injection h with h
            subst h
            refine ⟨?_, rfl, hstrip, truncate_context_ne_nil (generate_context_ne_nil pick _)⟩
            refine List.mem_append_right _ ?_
            decide
          · obtain ⟨h1, h2, h3⟩ := process_branch2_props h
            exact ⟨h1, h2, hstrip, h3⟩
        · rename_i hv
          split at h
          · injection h with h
            subst h
            exact ⟨valid_question_mem (not_not.mp hv), rfl, hstrip,
              truncate_context_ne_nil (generate_context_ne_nil pick _)⟩
          · obtain ⟨h1, h2, h3⟩ := process_branch2_props h
            exact ⟨h1, h2, hstrip, h3⟩
    · obtain ⟨h1, h2, h3⟩ := process_branch2_props h
      exact ⟨h1, h2, hstrip, h3⟩

theorem process_entry_props {pick : Nat} {entry : PyEntry} {ex : QCA}
    (h : process_entry pick entry = some ex) :
    ('?' : Char) ∈ ex.question ∧ (('?' : Char) ∉ ex.answer) ∧
      ex.answer ≠ [] ∧ ex.context ≠ [] := by
  simp only [process_entry] at h
  split at h
  · exact absurd h (by simp)
  · split at h <;> split at h <;> split at h
    all_goals
      first
      | exact absurd h (by simp)
      | (obtain ⟨h1, h2, h3, h4⟩ := process_core_props h
         refine ⟨h1, ?_, ?_, h4⟩
         · rw [h2]
           exact fun hin => cleanChain_no_qmark hin
         · rw [h2]
           intro habs
           apply h3
           rw [habs]
           rfl)

end DC

namespace JC

theorem process_segment_props {col : Collab} {lang segment : List Char} {ex : QCA}
    (h : process_segment col lang segment = some ex) :
    ex.question ≠ [] ∧ ex.context ≠ [] ∧ ex.answer ≠ [] ∧
      ¬ (pyStrip ex.question = pyStrip ex.context ∧
         pyStrip ex.context = pyStrip ex.answer) := by
  simp only [process_segment] at h
  split at h
  · exact absurd h (by simp)
  · split at h
    · exact absurd h (by simp)
    · split at h
      · exact absurd h (by simp)
      · rename_i hguard hsem
        injection h with h
        subst h
        obtain ⟨hA, hB⟩ := not_or.mp hguard
        obtain ⟨hq, hca⟩ := not_or.mp hA
        obtain ⟨hc, ha⟩ := not_or.mp hca
        exact ⟨hq, hc, ha, hB⟩

end JC

/-- C1 (amended): every record returned by `process_single_query`
(JsonDataCleaner) and every record appended by `process_data_chunk`
(DataCleaner) has a non-empty question, context and answer, and the three
trimmed fields are not all identical.  (Pairwise distinctness is not
enforced by the code — see the counterexample.) -/
theorem C1_emitted_records_spec :
    (∀ (col : JC.Collab) (query : JC.Query), ∀ ex ∈ JC.process_single_query col query,
        ex.question ≠ [] ∧ ex.context ≠ [] ∧ ex.answer ≠ [] ∧
          ¬ (pyStrip ex.question = pyStrip ex.context ∧
             pyStrip ex.context = pyStrip ex.answer)) ∧
    (∀ (pick : Nat → Nat) (data_chunk : List DC.PyEntry),
        ∀ ex ∈ DC.process_data_chunk pick data_chunk,
        ex.question ≠ [] ∧ ex.context ≠ [] ∧ ex.answer ≠ [] ∧
          ¬ (pyStrip ex.question = pyStrip ex.context ∧
             pyStrip ex.context = pyStrip ex.answer)) := by
  constructor
  · intro col query ex h
    simp only [JC.process_single_query] at h
    split at h
    all_goals
      split at h
      · simp at h
      · split at h
        · simp at h
        · split at h
          · simp at h
          · obtain ⟨seg, hseg, hsome⟩ := List.mem_filterMap.mp h
            exact JC.process_segment_props hsome
  · intro pick data_chunk ex h
    simp only [DC.process_data_chunk] at h
    obtain ⟨p, hp, hsome⟩ := List.mem_filterMap.mp h
    obtain ⟨hq, hna, hane, hcne⟩ := DC.process_entry_props hsome
    refine ⟨?_, hcne, hane, ?_⟩
    · intro habs
      rw [habs] at hq
      simp at hq
    · rintro ⟨h1, h2⟩
      have hq2 : ('?' : Char) ∈ pyStrip ex.question :=
        mem_pyStrip_of_not_space hq (by decide)
      rw [h1, h2] at hq2
      exact hna (mem_pyStrip hq2)

set_option maxRecDepth 8000 in
/-- C1 counterexample: with the external collaborators instantiated so that
`sent_tokenize` returns the fixed sentence `"ab cd"` and the spaCy token
stream is `ab`, `cd`, a 150-word query passes every filter and
`process_single_query` emits a record whose context and answer are the
identical string `"ab cd"`: the three fields are not pairwise distinct, only
the all-three-identical case is rejected. -/
theorem C1_counterexample :
    JC.process_single_query ceCollab ceQuery =
      [⟨"What is the relationship between ab, cd?".toList,
        "ab cd".toList, "ab cd".toList⟩] ∧
    (JC.process_single_query ceCollab ceQuery).any
      (fun ex => pyStrip ex.context == pyStrip ex.answer) = true :=
  ⟨by decide, by decide⟩

set_option maxRecDepth 8000 in
/-- C1 witness: the amended theorem applied to one concretely emitted record
of each pipeline. -/
theorem C1_witness :
    ((⟨"What is the relationship between ab, cd?".toList,
        "ab cd".toList, "ab cd".toList⟩ : QCA) ∈
        JC.process_single_query ceCollab ceQuery ∧
      (⟨"What is qa qb qc qd qe?".toList, "This is a a b a".toList, dcTarget⟩ : QCA) ∈
        DC.process_data_chunk (fun _ => 0) [dcEntry]) ∧
    ((⟨"What is the relationship between ab, cd?".toList,
        "ab cd".toList, "ab cd".toList⟩ : QCA).question ≠ [] ∧
      (⟨"What is the relationship between ab, cd?".toList,
        "ab cd".toList, "ab cd".toList⟩ : QCA).context ≠ [] ∧
      (⟨"What is the relationship between ab, cd?".toList,
        "ab cd".toList, "ab cd".toList⟩ : QCA).answer ≠ [] ∧
      ¬ (pyStrip (⟨"What is the relationship between ab, cd?".toList,
            "ab cd".toList, "ab cd".toList⟩ : QCA).question =
          pyStrip (⟨"What is the relationship between ab, cd?".toList,
            "ab cd".toList, "ab cd".toList⟩ : QCA).context ∧
         pyStrip (⟨"What is the relationship between ab, cd?".toList,
            "ab cd".toList, "ab cd".toList⟩ : QCA).context =
          pyStrip (⟨"What is the relationship between ab, cd?".toList,
            "ab cd".toList, "ab cd".toList⟩ : QCA).answer)) ∧
    ((⟨"What is qa qb qc qd qe?".toList, "This is a a b a".toList, dcTarget⟩ : QCA).question ≠ [] ∧
      (⟨"What is qa qb qc qd qe?".toList, "This is a a b a".toList, dcTarget⟩ : QCA).context ≠ [] ∧
      (⟨"What is qa qb qc qd qe?".toList, "This is a a b a".toList, dcTarget⟩ : QCA).answer ≠ [] ∧
      ¬ (pyStrip (⟨"What is qa qb qc qd qe?".toList, "This is a a b a".toList,
            dcTarget⟩ : QCA).question =
          pyStrip (⟨"What is qa qb qc qd qe?".toList, "This is a a b a".toList,
            dcTarget⟩ : QCA).context ∧
         pyStrip (⟨"What is qa qb qc qd qe?".toList, "This is a a b a".toList,
            dcTarget⟩ : QCA).context =
          pyStrip (⟨"What is qa qb qc qd qe?".toList, "This is a a b a".toList,
            dcTarget⟩ : QCA).answer)) :=
  ⟨⟨by decide, by decide⟩,
    C1_emitted_records_spec.1 ceCollab ceQuery _ (by decide),
    C1_emitted_records_spec.2 (fun _ => 0) [dcEntry] _ (by decide)⟩
